import Mathlib

/-!
# Verification of the hybrid circuit partitioner (`partition_P1/partitioner.py`)

This file gives a shallow embedding of the partitioning pipeline implemented in
`src/partition_P1/partitioner.py` and proves/refutes the frozen specification
claims about it.

Modelling conventions:
* Node identifiers are natural numbers (the Python code uses opaque hashable
  ids; only equality of ids is ever used).
* A `networkx.DiGraph` is a list of nodes (dict insertion order) together with
  a list of directed edges.  `DiGraph` stores at most one edge per ordered
  pair; theorems that need this carry a `Nodup` hypothesis on the edge list.
* Python `set`s of node ids become `Finset ℕ`.  Where the *iteration order*
  of a Python set is observable (the boundary-node scan of the I/O balancing
  loop), the embedding is parameterised by an explicit enumeration so that
  order-sensitivity can be stated and proved.
* The two third-party library calls (`sklearn` spectral clustering and
  `networkx.community.kernighan_lin_bisection`) are not part of this
  repository; they enter the embedding as oracle parameters, and theorems
  assume exactly their documented contracts (labels lie in `[0, k)`;
  the bisection returns a disjoint cover of its input node set).
* Floating point gains (`cut_gain + alpha * io_gain`) are modelled exactly:
  with `io_balance_alpha = aN / aD` (denominator `aD > 0`), the loop stores
  the gain scaled by `aD`, an integer; since the source only ever *compares*
  gains (initialised from `-inf`, modelled by `Option`), comparing the
  scaled integers is order-isomorphic to comparing the rational values
  `totalGainQ`.  The claims proved here use only this order structure, which
  the IEEE doubles of the source share (no NaN/inf arises among candidate
  gains: they are finite integers scaled by a finite `alpha`).
-/

namespace TwoFold

/-- A directed graph as handed to `hybrid_partitioner`: the node list (in
`networkx` insertion order) and the directed edge list. -/
structure Graph where
  nodes : List ℕ
  edges : List (ℕ × ℕ)

/-- Predecessor list of `n`: sources of the edges into `n`
(`graph.predecessors(node)` in the source). -/
def predsList (g : Graph) (n : ℕ) : List ℕ :=
  (g.edges.filter (fun e => decide (e.2 = n))).map Prod.fst

/-- Successor list of `n`: targets of the edges out of `n`
(`graph.successors(node)` in the source). -/
def succsList (g : Graph) (n : ℕ) : List ℕ :=
  (g.edges.filter (fun e => decide (e.1 = n))).map Prod.snd

/-- `nx.all_neighbors(graph, node)` on a `DiGraph`: the chain of predecessors
and successors (a node adjacent in both directions occurs twice). -/
def allNeighbors (g : Graph) (n : ℕ) : List ℕ :=
  predsList g n ++ succsList g n

/-- The node → partition-index dictionary built by the comprehension
`{node: i for i, p in enumerate(partitions) for node in p}` in
`_calculate_cut_size` (and before the I/O balancing phase): a later
partition containing the node overwrites an earlier one. -/
def mapOf (parts : List (Finset ℕ)) : ℕ → Option ℕ := fun x =>
  (List.range parts.length).foldl
    (fun acc i => if x ∈ parts.getD i ∅ then some i else acc) none

/-- Cut size relative to an explicit node → partition map: the number of
edges whose endpoints map to different values (`None` counting as a value,
as `dict.get` does in the source). -/
def cutSizeM (g : Graph) (m : ℕ → Option ℕ) : ℕ :=
  (g.edges.filter (fun e => decide (m e.1 ≠ m e.2))).length

/-- `_calculate_cut_size(graph, partitions)`: build the node → partition map
from the partition list, then count the edges crossing it. -/
def calculate_cut_size (g : Graph) (parts : List (Finset ℕ)) : ℕ :=
  cutSizeM g (mapOf parts)

/-- `_get_io_for_partition(graph, partition_nodes)`: the number of distinct
external predecessors (inputs) and distinct external successors (outputs)
of the partition. -/
def get_io_for_partition (g : Graph) (p : Finset ℕ) : ℕ × ℕ :=
  (((g.edges.filter (fun e => decide (e.2 ∈ p ∧ e.1 ∉ p))).map Prod.fst).toFinset.card,
   ((g.edges.filter (fun e => decide (e.1 ∈ p ∧ e.2 ∉ p))).map Prod.snd).toFinset.card)

/-- Membership in a partition list, phrased with `getD`. -/
def memPart (parts : List (Finset ℕ)) (x i : ℕ) : Prop :=
  i < parts.length ∧ x ∈ parts.getD i ∅

/-- Consistency of a node → partition map with a partition list: `m` sends a
node to exactly the indices of the partitions containing it (spec §3,
"PartitionAssignment ... must stay consistent with the Partition list"). -/
def Agrees (m : ℕ → Option ℕ) (parts : List (Finset ℕ)) : Prop :=
  ∀ x i, m x = some i ↔ memPart parts x i

/-- Index-wise pairwise disjointness of a partition list (stated over
`List.range` so that concrete instances are decidable). -/
def PDisjoint (parts : List (Finset ℕ)) : Prop :=
  ∀ i ∈ List.range parts.length, ∀ j ∈ List.range parts.length,
    i ≠ j → Disjoint (parts.getD i ∅) (parts.getD j ∅)

instance (parts : List (Finset ℕ)) : Decidable (PDisjoint parts) :=
  inferInstanceAs (Decidable (∀ i ∈ List.range parts.length,
    ∀ j ∈ List.range parts.length,
      i ≠ j → Disjoint (parts.getD i ∅) (parts.getD j ∅)))

lemma pdisjoint_iff {parts : List (Finset ℕ)} :
    PDisjoint parts ↔
      ∀ i j, i < parts.length → j < parts.length → i ≠ j →
        Disjoint (parts.getD i ∅) (parts.getD j ∅) := by
  unfold PDisjoint
  simp only [List.mem_range]
  exact ⟨fun h i j hi hj => h i hi j hj, fun h i hi j hj => h i j hi hj⟩

/-- Union of all partitions in the list. -/
def unionAll (parts : List (Finset ℕ)) : Finset ℕ :=
  parts.foldr (· ∪ ·) ∅

/-! ## The adjacency finder (`_find_adjacent_partitions`) -/

/-- `graph.has_edge(u, v)`. -/
def hasEdge (g : Graph) (u v : ℕ) : Bool := decide ((u, v) ∈ g.edges)

/-- Ascending enumeration of a finite set of node ids (computably, as a
filter of an initial segment, so that concrete instances evaluate inside the
kernel). -/
def sortFin (s : Finset ℕ) : List ℕ :=
  (List.range (s.fold max 0 id + 1)).filter fun x => decide (x ∈ s)

/-- The `itertools.product(part_A, part_B)` pair stream.  Python iterates the
two sets; for the small integer ids used here that traversal is the
ascending order produced by `sortFin`. -/
def pairStream (A B : Finset ℕ) : List (ℕ × ℕ) :=
  (sortFin A).flatMap fun u => (sortFin B).map fun v => (u, v)

/-- The short-circuiting `any(graph.has_edge(u, v) or graph.has_edge(v, u) ...)`
test of the source, instrumented with the number of `has_edge` probes it
issues: `or` stops after the first true operand and `any` stops at the first
true pair. -/
def anyEdgeProbes (g : Graph) : List (ℕ × ℕ) → Bool × ℕ
  | [] => (false, 0)
  | (u, v) :: rest =>
      if hasEdge g u v then (true, 1)
      else if hasEdge g v u then (true, 2)
      else
        let r := anyEdgeProbes g rest
        (r.1, 2 + r.2)

/-- `_find_adjacent_partitions(graph, partitions)`: the double loop over index
pairs `i < j`, testing adjacency via a cartesian product of the two partition
contents. (The source accumulates the pairs into a Python set and returns
`list(...)`; since each `(i, j)` with `i < j` is generated at most once, the
set is faithfully represented by this duplicate-free list.) -/
def find_adjacent_partitions (g : Graph) (parts : List (Finset ℕ)) : List (ℕ × ℕ) :=
  (List.range parts.length).flatMap fun i =>
    (List.range parts.length).filterMap fun j =>
      if i ≥ j then none
      else if (anyEdgeProbes g (pairStream (parts.getD i ∅) (parts.getD j ∅))).1 then
        some (i, j)
      else none

/-- Total number of `has_edge` probes issued by `_find_adjacent_partitions`. -/
def adjacencyProbeCount (g : Graph) (parts : List (Finset ℕ)) : ℕ :=
  ((List.range parts.length).flatMap fun i =>
    (List.range parts.length).filterMap fun j =>
      if i ≥ j then none
      else some (anyEdgeProbes g (pairStream (parts.getD i ∅) (parts.getD j ∅))).2).sum

/-- Modelled from the spec (§4.2, the "required algorithm"): the single pass
over all edges, recording the endpoint partition pair when the two indices
differ.  Used only to compare the source's algorithm against the spec's
description of it. -/
def edgeScanAdjacent (g : Graph) (parts : List (Finset ℕ)) : Finset (ℕ × ℕ) :=
  (g.edges.filterMap fun e =>
    match mapOf parts e.1, mapOf parts e.2 with
    | some i, some j =>
        if i < j then some (i, j) else if j < i then some (j, i) else none
    | _, _ => none).toFinset

/-! ## The I/O balancing phase (phase 3 of `hybrid_partitioner`) -/

/-- Pointwise update of the node → partition map
(`node_to_partition[node_to_move] = target_idx`). -/
def updateMap (m : ℕ → Option ℕ) (n t : ℕ) : ℕ → Option ℕ :=
  fun x => if x = n then some t else m x

/-- The `cut_gain` computation (source lines 204–212): iterate
`nx.all_neighbors(graph, node)`, skip unmapped neighbors, subtract one for a
neighbor in the current partition, add one for a neighbor in the target. -/
def cutGain (g : Graph) (m : ℕ → Option ℕ) (n c t : ℕ) : ℤ :=
  (allNeighbors g n).foldl
    (fun acc x =>
      match m x with
      | none => acc
      | some px => if px = c then acc - 1 else if px = t then acc + 1 else acc) 0

/-- `abs(num_inputs - num_outputs)` of a partition, the per-partition I/O
imbalance. -/
def ioImb (g : Graph) (p : Finset ℕ) : ℤ :=
  |((get_io_for_partition g p).1 : ℤ) - ((get_io_for_partition g p).2 : ℤ)|

/-- The `io_gain` computation (source lines 215–233): total I/O imbalance of
the two affected partitions before the move minus the same after simulating
the move. -/
def ioGain (g : Graph) (parts : List (Finset ℕ)) (n c t : ℕ) : ℤ :=
  let pc := parts.getD c ∅
  let pt := parts.getD t ∅
  (ioImb g pc + ioImb g pt) - (ioImb g (pc.erase n) + ioImb g (insert n pt))

/-- `total_gain = cut_gain + io_balance_alpha * io_gain` (source line 236),
as the exact rational the source computes with `io_balance_alpha = aN / aD`. -/
def totalGainQ (g : Graph) (alpha : ℚ) (parts : List (Finset ℕ))
    (m : ℕ → Option ℕ) (n c t : ℕ) : ℚ :=
  (cutGain g m n c t : ℚ) + alpha * (ioGain g parts n c t : ℚ)

/-- The same quantity scaled by the positive denominator `aD` of
`io_balance_alpha = aN / aD`: an order-isomorphic integer representation
(the loop only ever compares gains, so comparing the scaled values is
faithful; it also lets concrete runs evaluate inside the kernel). -/
def totalGainSc (g : Graph) (aN aD : ℤ) (parts : List (Finset ℕ))
    (m : ℕ → Option ℕ) (n c t : ℕ) : ℤ :=
  aD * cutGain g m n c t + aN * ioGain g parts n c t

/-- The mutable state of phase 3: the partition list and the node → partition
map, updated together. -/
structure PState where
  partitions : List (Finset ℕ)
  m : ℕ → Option ℕ

/-- The boundary-node set (source lines 179–183): both endpoints of every
edge whose endpoints map to different partition indices. -/
def boundaryFinset (g : Graph) (m : ℕ → Option ℕ) : Finset ℕ :=
  ((g.edges.filter fun e => decide (m e.1 ≠ m e.2)).flatMap fun e => [e.1, e.2]).toFinset

/-- The distinct partition indices held by neighbors of `n`
(`neighbor_partitions` at source lines 192–196), in first-occurrence order. -/
def neighborTargets (g : Graph) (m : ℕ → Option ℕ) (n : ℕ) : List ℕ :=
  ((allNeighbors g n).filterMap m).dedup

/-- A candidate move considered by the balancing pass; `gain` is the scaled
`total_gain`. -/
structure Cand where
  node : ℕ
  cur : ℕ
  target : ℕ
  gain : ℤ

/-- All candidate moves generated for one boundary node (source lines
188–243): for each neighbor partition other than the current one, the move
with its `total_gain`.  A node absent from the map generates nothing (the
source would raise `KeyError`; the pipeline never produces such a node). -/
def candsForNode (g : Graph) (aN aD : ℤ) (parts : List (Finset ℕ))
    (m : ℕ → Option ℕ) (n : ℕ) : List Cand :=
  match m n with
  | none => []
  | some c =>
      ((neighborTargets g m n).filter fun t => decide (t ≠ c)).map fun t =>
        ⟨n, c, t, totalGainSc g aN aD parts m n c t⟩

/-- The full candidate stream of one pass, in the order the Python `for`
loops visit it: boundary nodes in set-iteration order `ord`, then neighbor
partitions per node. -/
def passCands (g : Graph) (aN aD : ℤ) (st : PState) (ord : List ℕ) : List Cand :=
  ord.flatMap (candsForNode g aN aD st.partitions st.m)

/-- The running `best_move` selection (source lines 176, 238–243): starting
from `cost_improvement = -inf`, keep the first candidate that is strictly
better than the best so far. -/
def bestMove (l : List Cand) : Option Cand :=
  l.foldl
    (fun best c =>
      match best with
      | none => some c
      | some b => if c.gain > b.gain then some c else best) none

/-- Apply the winning move (source lines 245–253): remove the node from its
current partition, add it to the target partition, update the map. -/
def applyMove (st : PState) (cd : Cand) : PState :=
  let p1 := st.partitions.set cd.cur ((st.partitions.getD cd.cur ∅).erase cd.node)
  let p2 := p1.set cd.target (insert cd.node (p1.getD cd.target ∅))
  ⟨p2, updateMap st.m cd.node cd.target⟩

/-- Result of the balancing loop: final state, number of loop-body
executions (passes), number of applied moves, and whether the loop ended by
one of its `break` conditions (`normal = true`) rather than by exhausting
the pass cap. -/
structure LoopOut where
  state : PState
  passes : ℕ
  moves : ℕ
  normal : Bool

/-- The bounded greedy loop (source lines 175–256).  `ord` supplies, for any
state, the order in which Python's set iteration visits the boundary nodes;
the fuel is `MAX_IO_BALANCE_ITERATIONS = graph.number_of_nodes()` at the
call site. -/
def ioLoop (g : Graph) (aN aD : ℤ) (ord : PState → List ℕ) :
    ℕ → PState → LoopOut
  | 0, st => ⟨st, 0, 0, false⟩
  | fuel + 1, st =>
      if boundaryFinset g st.m = ∅ then ⟨st, 1, 0, true⟩
      else
        match bestMove (passCands g aN aD st (ord st)) with
        | none => ⟨st, 1, 0, true⟩
        | some cd =>
            if cd.gain > 0 then
              let out := ioLoop g aN aD ord fuel (applyMove st cd)
              ⟨out.state, out.passes + 1, out.moves + 1, out.normal⟩
            else ⟨st, 1, 0, true⟩

/-! ## The pipeline (`hybrid_partitioner`) -/

/-- `k = math.ceil(num_nodes / target_partition_size)` (for a positive target
size). -/
def kOf (n t : ℕ) : ℕ := (n + t - 1) / t

/-- Distribution of the spectral-clustering labels over `k` fresh partitions
(source lines 133–136): `partitions[labels[i]].add(node)` for the `i`-th
node of the node list. -/
def assignClusters (nodeList : List ℕ) (labels : List ℕ) (k : ℕ) :
    List (Finset ℕ) :=
  (nodeList.zip labels).foldl
    (fun parts nl => parts.set nl.2 (insert nl.1 (parts.getD nl.2 ∅)))
    (List.replicate k ∅)

/-- The Kernighan–Lin refinement phase (source lines 148–162): for each
adjacent pair `(i, j)`, replace `partitions[i]` and `partitions[j]` by the
two sides returned by the (library) bisection of their union.  `klB` is the
oracle standing for `nx.community.kernighan_lin_bisection` on the induced
subgraph with the fixed seed. -/
def klPhase (klB : Finset ℕ → Finset ℕ → Finset ℕ × Finset ℕ)
    (pairs : List (ℕ × ℕ)) (parts : List (Finset ℕ)) : List (Finset ℕ) :=
  pairs.foldl
    (fun ps ij =>
      let r := klB (ps.getD ij.1 ∅) (ps.getD ij.2 ∅)
      (ps.set ij.1 r.1).set ij.2 r.2)
    parts

/-- Phase 1 output: the initial k-way partition from the clustering labels. -/
def spectralParts (g : Graph) (t : ℕ) (labels : List ℕ) : List (Finset ℕ) :=
  assignClusters g.nodes labels (kOf g.nodes.length t)

/-- Phase 2 output. -/
def klParts (g : Graph) (t : ℕ) (labels : List ℕ)
    (klB : Finset ℕ → Finset ℕ → Finset ℕ × Finset ℕ)
    (pairList : List (ℕ × ℕ)) : List (Finset ℕ) :=
  klPhase klB pairList (spectralParts g t labels)

/-- The phase-3 start state: the map is rebuilt from the partition list
(source line 171). -/
def ioStart (g : Graph) (t : ℕ) (labels : List ℕ)
    (klB : Finset ℕ → Finset ℕ → Finset ℕ × Finset ℕ)
    (pairList : List (ℕ × ℕ)) : PState :=
  ⟨klParts g t labels klB pairList, mapOf (klParts g t labels klB pairList)⟩

/-- Phase 3 output. -/
def ioOut (g : Graph) (t : ℕ) (aN aD : ℤ) (labels : List ℕ)
    (klB : Finset ℕ → Finset ℕ → Finset ℕ × Finset ℕ)
    (pairList : List (ℕ × ℕ)) (ord : PState → List ℕ) : LoopOut :=
  ioLoop g aN aD ord g.nodes.length (ioStart g t labels klB pairList)

/-- `hybrid_partitioner(graph, target_partition_size, kl_max_iter,
io_balance_alpha)`.  `labels` stands for the sklearn `fit_predict` result,
`klB` for the networkx bisection, `pairList` for `list(adj_pairs)` (the
iteration order of the Python set of index pairs), and `ord` for the
iteration order of the boundary-node sets; `kl_max_iter` is absorbed by the
`klB` oracle, which it only parameterises. -/
def hybrid_partitioner (g : Graph) (t : ℕ) (aN aD : ℤ) (labels : List ℕ)
    (klB : Finset ℕ → Finset ℕ → Finset ℕ × Finset ℕ)
    (pairList : List (ℕ × ℕ)) (ord : PState → List ℕ) : List (Finset ℕ) :=
  if g.nodes.length = 0 then []
  else if kOf g.nodes.length t < 2 then [g.nodes.toFinset]
  else
    (ioOut g t aN aD labels klB pairList ord).state.partitions.filter
      fun p => decide (p ≠ ∅)

/-- Ascending enumeration of the boundary set: one concrete realisation of
Python's set iteration order. -/
def ordAsc (g : Graph) : PState → List ℕ := fun st =>
  sortFin (boundaryFinset g st.m)

/-- Descending enumeration of the boundary set: another realisation. -/
def ordDesc (g : Graph) : PState → List ℕ := fun st =>
  (sortFin (boundaryFinset g st.m)).reverse

/-! ## Auxiliary quantities used by the proofs -/

/-- Indicator (as an integer) of an edge being cut by the map `m`. -/
def edgeInd (m : ℕ → Option ℕ) (e : ℕ × ℕ) : ℤ :=
  if m e.1 ≠ m e.2 then 1 else 0

/-- Per-neighbor contribution to `cut_gain` for a move `c → t`. -/
def gainTerm (m : ℕ → Option ℕ) (c t x : ℕ) : ℤ :=
  match m x with
  | none => 0
  | some px => if px = c then -1 else if px = t then 1 else 0

/-- Per-edge contribution to `cut_gain` of the node `n` moving `c → t`. -/
def moveTerm (m : ℕ → Option ℕ) (n c t : ℕ) (e : ℕ × ℕ) : ℤ :=
  (if e.2 = n then gainTerm m c t e.1 else 0) +
    (if e.1 = n then gainTerm m c t e.2 else 0)

/-- Number of self-loop edges on `n`. -/
def loopCount (g : Graph) (n : ℕ) : ℕ :=
  (g.edges.filter fun e => decide (e = (n, n))).length

/-- Number of incident directed edges of `n` whose other endpoint lies in
partition `p` (a neighbor adjacent through both an in- and an out-edge
counts twice, as in the source's `nx.all_neighbors` iteration). -/
def edgesToPart (g : Graph) (m : ℕ → Option ℕ) (n p : ℕ) : ℕ :=
  ((allNeighbors g n).filter fun x => decide (m x = some p)).length

/-- The graph invariant: every edge endpoint is a node. -/
def EdgeClosed (g : Graph) : Prop :=
  ∀ e ∈ g.edges, e.1 ∈ g.nodes ∧ e.2 ∈ g.nodes

instance (g : Graph) : Decidable (EdgeClosed g) :=
  inferInstanceAs (Decidable (∀ e ∈ g.edges, e.1 ∈ g.nodes ∧ e.2 ∈ g.nodes))

/-! ## Concrete inputs used by counterexamples and witnesses -/

/-- Four nodes, a two-way edge between nodes 0 and 1; nodes 2 and 3 are
isolated.  With partitions `{0, 2}` and `{1, 3}`, moving 0 right and moving
1 left are distinct candidate moves of equal (maximal, positive) gain. -/
def gBi : Graph := ⟨[0, 1, 2, 3], [(0, 1), (1, 0)]⟩

/-- The phase-3 state of `gBi` with partitions `{0, 2}` and `{1, 3}`. -/
def stBi : PState :=
  ⟨[({0, 2} : Finset ℕ), {1, 3}], mapOf [({0, 2} : Finset ℕ), {1, 3}]⟩

/-- Four nodes and the single edge `(0, 1)`, internal to the first of the
partitions `{0, 1}` and `{2, 3}`: the adjacency scan still probes every
cross pair. -/
def gCross : Graph := ⟨[0, 1, 2, 3], [(0, 1)]⟩

/-- Two nodes with a self-loop on node 0 and the edge `(0, 1)`. -/
def gLoop : Graph := ⟨[0, 1], [(0, 0), (0, 1)]⟩

/-- Partitions `{0}`, `{1}` of `gLoop`. -/
def partsLoop : List (Finset ℕ) := [({0} : Finset ℕ), {1}]

/-- A 4-node, 2-edge witness graph: two disjoint edges. -/
def gW : Graph := ⟨[0, 1, 2, 3], [(0, 1), (2, 3)]⟩

/-- The identity bisection oracle: returns the two partitions unchanged
(exactly what `kernighan_lin_bisection` does when no positive-gain swap
exists, e.g. on an already optimal split). -/
def klbId : Finset ℕ → Finset ℕ → Finset ℕ × Finset ℕ := fun A B => (A, B)

/-- A directed path 0 → 1 → 2 → 3. -/
def gPath : Graph := ⟨[0, 1, 2, 3], [(0, 1), (1, 2), (2, 3)]⟩

/-- The phase-3 state of `gPath` with partitions `{0, 1}` and `{2, 3}`:
the boundary `{1, 2}` is non-empty but no move has positive gain at
`io_balance_alpha = 0`. -/
def stPath : PState :=
  ⟨[({0, 1} : Finset ℕ), {2, 3}], mapOf [({0, 1} : Finset ℕ), {2, 3}]⟩

/-- A single node with a self-loop. -/
def gSingle : Graph := ⟨[5], [(5, 5)]⟩

/-! ## Basic list and partition-list lemmas -/

lemma getD_set_self {α : Type} {l : List α} {i : ℕ} (h : i < l.length)
    (X d : α) : (l.set i X).getD i d = X := by
  rw [List.getD_eq_getElem?_getD, List.getElem?_set_self h]
  rfl

lemma getD_set_ne {α : Type} {l : List α} {i j : ℕ} (h : i ≠ j)
    (X d : α) : (l.set i X).getD j d = l.getD j d := by
  rw [List.getD_eq_getElem?_getD, List.getElem?_set_ne h,
    ← List.getD_eq_getElem?_getD]

lemma getD_eq_getElem {α : Type} {l : List α} {i : ℕ} (h : i < l.length)
    (d : α) : l.getD i d = l.get ⟨i, h⟩ := by
  rw [List.getD_eq_getElem?_getD, List.getElem?_eq_getElem h]
  rfl

lemma mem_unionAll {parts : List (Finset ℕ)} {x : ℕ} :
    x ∈ unionAll parts ↔ ∃ p ∈ parts, x ∈ p := by
  induction parts with
  | nil => simp [unionAll]
  | cons a l ih =>
      simp only [unionAll, List.foldr_cons, Finset.mem_union, List.mem_cons]
      constructor
      · rintro (h | h)
        · exact ⟨a, Or.inl rfl, h⟩
        · obtain ⟨p, hp, hx⟩ := ih.mp h
          exact ⟨p, Or.inr hp, hx⟩
      · rintro ⟨p, hp | hp, hx⟩
        · exact Or.inl (hp ▸ hx)
        · exact Or.inr (ih.mpr ⟨p, hp, hx⟩)

lemma mem_unionAll_idx {parts : List (Finset ℕ)} {x : ℕ} :
    x ∈ unionAll parts ↔ ∃ i, memPart parts x i := by
  rw [mem_unionAll]
  constructor
  · rintro ⟨p, hp, hx⟩
    obtain ⟨i, hi, rfl⟩ := List.getElem_of_mem hp
    exact ⟨i, hi, by rw [getD_eq_getElem hi]; exact hx⟩
  · rintro ⟨i, hi, hx⟩
    refine ⟨parts.getD i ∅, ?_, hx⟩
    rw [getD_eq_getElem hi]
    exact List.getElem_mem hi

/-! ## Characterisation of `mapOf` (the dict comprehension) -/

lemma mapOf_fold_some {parts : List (Finset ℕ)} {x i : ℕ} :
    ∀ (L : List ℕ) (acc : Option ℕ),
      L.foldl (fun acc j => if x ∈ parts.getD j ∅ then some j else acc) acc =
          some i →
        (i ∈ L ∧ x ∈ parts.getD i ∅) ∨ acc = some i := by
  intro L
  induction L with
  | nil => intro acc h; exact Or.inr h
  | cons a L ih =>
      intro acc h
      rcases ih _ h with ⟨hiL, hix⟩ | hacc
      · exact Or.inl ⟨List.mem_cons_of_mem _ hiL, hix⟩
      · by_cases hxa : x ∈ parts.getD a ∅
        · simp only [hxa, if_pos] at hacc
          obtain rfl : a = i := by injection hacc
          exact Or.inl ⟨List.mem_cons_self _ _, hxa⟩
        · simp only [hxa, if_neg, not_false_iff] at hacc
          exact Or.inr hacc

lemma mapOf_fold_skip {parts : List (Finset ℕ)} {x : ℕ} :
    ∀ (L : List ℕ) (acc : Option ℕ), (∀ j ∈ L, x ∉ parts.getD j ∅) →
      L.foldl (fun acc j => if x ∈ parts.getD j ∅ then some j else acc) acc =
        acc := by
  intro L
  induction L with
  | nil => intro acc _; rfl
  | cons a L ih =>
      intro acc hL
      have hxa : x ∉ parts.getD a ∅ := hL a (List.mem_cons_self _ _)
      simp only [List.foldl_cons, hxa, if_neg, not_false_iff]
      exact ih acc fun j hj => hL j (List.mem_cons_of_mem _ hj)

lemma mapOf_fold_hit {parts : List (Finset ℕ)} {x i : ℕ} :
    ∀ (L : List ℕ) (acc : Option ℕ), L.Nodup → i ∈ L →
      x ∈ parts.getD i ∅ → (∀ j ∈ L, j ≠ i → x ∉ parts.getD j ∅) →
      L.foldl (fun acc j => if x ∈ parts.getD j ∅ then some j else acc) acc =
        some i := by
  intro L
  induction L with
  | nil => intro _ _ h; cases h
  | cons a L ih =>
      intro acc hnd hiL hxi huniq
      rcases List.mem_cons.mp hiL with rfl | hiL'
      · simp only [List.foldl_cons, hxi, if_pos]
        refine mapOf_fold_skip L _ fun j hj => ?_
        have hja : j ≠ i := by
          rintro rfl
          exact (List.nodup_cons.mp hnd).1 hj
        exact huniq j (List.mem_cons_of_mem _ hj) hja
      · have hai : a ≠ i := by
          rintro rfl
          exact (List.nodup_cons.mp hnd).1 hiL'
        have hxa : x ∉ parts.getD a ∅ :=
          huniq a (List.mem_cons_self _ _) hai
        simp only [List.foldl_cons, hxa, if_neg, not_false_iff]
        exact ih acc (List.nodup_cons.mp hnd).2 hiL' hxi
          fun j hj hji => huniq j (List.mem_cons_of_mem _ hj) hji

/-- Under pairwise disjointness, the rebuilt dictionary of
`_calculate_cut_size` agrees with the partition list. -/
lemma agrees_mapOf {parts : List (Finset ℕ)} (hd : PDisjoint parts) :
    Agrees (mapOf parts) parts := by
  intro x i
  constructor
  · intro h
    rcases mapOf_fold_some _ _ h with ⟨hiL, hix⟩ | hacc
    · exact ⟨List.mem_range.mp hiL, hix⟩
    · cases hacc
  · rintro ⟨hi, hx⟩
    refine mapOf_fold_hit _ _ (List.nodup_range _) (List.mem_range.mpr hi) hx
      fun j hj hji hxj => ?_
    have hdij := hd j hj i (List.mem_range.mpr hi) hji
    exact (Finset.disjoint_left.mp hdij) hxj hx

/-- A consistent map forces pairwise disjointness of the partition list. -/
lemma pdisjoint_of_agrees {m : ℕ → Option ℕ} {parts : List (Finset ℕ)}
    (h : Agrees m parts) : PDisjoint parts := by
  rw [pdisjoint_iff]
  intro i j hi hj hij
  rw [Finset.disjoint_left]
  intro x hxi hxj
  have h1 : m x = some i := (h x i).mpr ⟨hi, hxi⟩
  have h2 : m x = some j := (h x j).mpr ⟨hj, hxj⟩
  rw [h1] at h2
  exact hij (by injection h2)

/-! ## Summation helpers -/

lemma foldl_add_eq_sum {α : Type} (g : α → ℤ) :
    ∀ (l : List α) (a : ℤ), l.foldl (fun acc x => acc + g x) a = a + (l.map g).sum := by
  intro l
  induction l with
  | nil => intro a; simp
  | cons x l ih => intro a; simp [ih]; ring

lemma sum_map_add {α : Type} (f g : α → ℤ) :
    ∀ l : List α, (l.map fun x => f x + g x).sum = (l.map f).sum + (l.map g).sum := by
  intro l
  induction l with
  | nil => simp
  | cons x l ih => simp [ih]; ring

lemma sum_map_sub {α : Type} (f g : α → ℤ) :
    ∀ l : List α, (l.map fun x => f x - g x).sum = (l.map f).sum - (l.map g).sum := by
  intro l
  induction l with
  | nil => simp
  | cons x l ih => simp [ih]; ring

lemma sum_filter_ite {α : Type} (p : α → Bool) (F : α → ℤ) :
    ∀ l : List α,
      ((l.filter p).map F).sum = (l.map fun e => if p e then F e else 0).sum := by
  intro l
  induction l with
  | nil => simp
  | cons x l ih =>
      by_cases hx : p x <;> simp [List.filter_cons, hx, ih]

lemma length_filter_eq_sum_ind {α : Type} (p : α → Prop) [DecidablePred p] :
    ∀ l : List α,
      (((l.filter fun e => decide (p e)).length : ℤ)) =
        (l.map fun e => if p e then (1 : ℤ) else 0).sum := by
  intro l
  induction l with
  | nil => simp
  | cons x l ih =>
      by_cases hx : p x
      · rw [List.filter_cons, if_pos (by simpa using hx)]
        simp only [List.length_cons, List.map_cons, List.sum_cons, if_pos hx]
        push_cast
        rw [ih]
        ring
      · rw [List.filter_cons, if_neg (by simpa using hx)]
        simp [hx, ih]

/-! ## The cut-size accounting of a single move -/

lemma cutGain_fold {m : ℕ → Option ℕ} {c t : ℕ} :
    ∀ (l : List ℕ) (a : ℤ),
      l.foldl
        (fun acc x =>
          match m x with
          | none => acc
          | some px =>
              if px = c then acc - 1 else if px = t then acc + 1 else acc) a =
        a + (l.map (gainTerm m c t)).sum := by
  intro l
  induction l with
  | nil => intro a; simp
  | cons x l ih =>
      intro a
      have hstep :
          (match m x with
            | none => a
            | some px =>
                if px = c then a - 1 else if px = t then a + 1 else a) =
            a + gainTerm m c t x := by
        cases hmx : m x with
        | none => simp [gainTerm, hmx]
        | some px =>
            simp only [gainTerm, hmx]
            split_ifs <;> ring
      simp only [List.foldl_cons, hstep, List.map_cons, List.sum_cons, ih]
      ring

lemma cutGain_eq_moveSum (g : Graph) (m : ℕ → Option ℕ) (n c t : ℕ) :
    cutGain g m n c t = (g.edges.map (moveTerm m n c t)).sum := by
  unfold cutGain allNeighbors
  rw [List.foldl_append, cutGain_fold, cutGain_fold, zero_add]
  unfold predsList succsList
  rw [List.map_map, List.map_map, sum_filter_ite, sum_filter_ite]
  unfold moveTerm
  rw [sum_map_add]
  congr 1
  · refine congrArg List.sum (List.map_congr_left fun e _ => ?_)
    by_cases h : e.2 = n <;> simp [h, Function.comp]
  · refine congrArg List.sum (List.map_congr_left fun e _ => ?_)
    by_cases h : e.1 = n <;> simp [h, Function.comp]

lemma cutSizeM_eq_sum (g : Graph) (m : ℕ → Option ℕ) :
    (cutSizeM g m : ℤ) = (g.edges.map (edgeInd m)).sum := by
  unfold cutSizeM edgeInd
  exact length_filter_eq_sum_ind _ g.edges

lemma edgeInd_update {m : ℕ → Option ℕ} {n c t : ℕ}
    (hm : m n = some c) (hct : c ≠ t) (e : ℕ × ℕ) :
    edgeInd (updateMap m n t) e =
      edgeInd m e - moveTerm m n c t e - (if e = (n, n) then 2 else 0) := by
  obtain ⟨u, v⟩ := e
  simp only [edgeInd, moveTerm, updateMap, gainTerm, Prod.mk.injEq]
  by_cases hu : u = n <;> by_cases hv : v = n
  · simp only [hu, hv, if_pos rfl, and_self, if_true, hm]
    simp [hct]
  · simp only [hu, hv, if_pos rfl, if_neg, not_false_iff, and_false, if_false,
      hm]
    cases hmv : m v with
    | none => simp [hct]
    | some pv =>
        by_cases hpc : pv = c
        · simp [hpc, hct, Ne.symm hct]
        · by_cases hpt : pv = t
          · simp [hpt, hpc, Ne.symm hpc, hct, Ne.symm hct]
          · simp [hpc, hpt, Ne.symm hpc, Ne.symm hpt]
  · simp only [hu, hv, if_pos rfl, if_neg, not_false_iff, false_and, if_false,
      hm]
    cases hmu : m u with
    | none => simp [hct, fun h => hct (Eq.symm h)]
    | some pu =>
        by_cases hpc : pu = c
        · simp [hpc, hct, Ne.symm hct]
        · by_cases hpt : pu = t
          · simp [hpt, hpc, Ne.symm hpc, hct, Ne.symm hct]
          · simp [hpc, hpt, Ne.symm hpc, Ne.symm hpt]
  · simp [hu, hv]

/-- Moving `n` from its partition `c` to `t ≠ c` changes the map-level cut
size by exactly `cut_gain`, except that each self-loop on `n` contributes a
spurious `-2` to `cut_gain` while leaving the true cut unchanged. -/
lemma cutSizeM_update (g : Graph) {m : ℕ → Option ℕ} {n c t : ℕ}
    (hm : m n = some c) (hct : c ≠ t) :
    (cutSizeM g (updateMap m n t) : ℤ) =
      (cutSizeM g m : ℤ) - cutGain g m n c t - 2 * (loopCount g n : ℤ) := by
  rw [cutSizeM_eq_sum, cutSizeM_eq_sum, cutGain_eq_moveSum]
  have hcongr :
      g.edges.map (edgeInd (updateMap m n t)) =
        g.edges.map fun e =>
          edgeInd m e - moveTerm m n c t e - (if e = (n, n) then 2 else 0) :=
    List.map_congr_left fun e _ => edgeInd_update hm hct e
  rw [hcongr]
  have h2 :
      (g.edges.map fun e => (if e = (n, n) then (2 : ℤ) else 0)).sum =
        2 * (loopCount g n : ℤ) := by
    unfold loopCount
    rw [length_filter_eq_sum_ind (fun e => e = (n, n)) g.edges]
    have hgen :
        ∀ l : List (ℕ × ℕ),
          (l.map fun e => (if e = (n, n) then (2 : ℤ) else 0)).sum =
            2 * (l.map fun e => (if e = (n, n) then (1 : ℤ) else 0)).sum := by
      intro l
      induction l with
      | nil => simp
      | cons x l ih =>
          by_cases hx : x = (n, n)
          · simp [hx, ih]; ring
          · simp [hx, ih]
    exact hgen g.edges
  rw [sum_map_sub (fun e => edgeInd m e - moveTerm m n c t e)
      (fun e => if e = (n, n) then (2 : ℤ) else 0),
    sum_map_sub (edgeInd m) (moveTerm m n c t), h2]

/-- `cut_gain` counts incident edges into the target minus incident edges
into the current partition (each directed edge counted once). -/
lemma cutGain_eq_counts (g : Graph) (m : ℕ → Option ℕ) (n : ℕ) {c t : ℕ}
    (hct : c ≠ t) :
    cutGain g m n c t = (edgesToPart g m n t : ℤ) - (edgesToPart g m n c : ℤ) := by
  unfold cutGain edgesToPart
  rw [cutGain_fold, zero_add]
  rw [length_filter_eq_sum_ind (fun x => m x = some t) (allNeighbors g n),
    length_filter_eq_sum_ind (fun x => m x = some c) (allNeighbors g n),
    ← sum_map_sub]
  refine congrArg List.sum (List.map_congr_left fun x _ => ?_)
  cases hmx : m x with
  | none => simp [gainTerm, hmx]
  | some px =>
      simp only [gainTerm, hmx, Option.some.injEq]
      by_cases hpc : px = c
      · simp [hpc, hct, Ne.symm hct]
      · by_cases hpt : px = t
        · simp [hpt, hpc, hct, Ne.symm hct]
        · simp [hpc, hpt]

/-! ## The `best_move` selection -/

lemma bestMove_aux :
    ∀ (l : List Cand) (b : Cand),
      ∃ c,
        l.foldl
            (fun best c =>
              match best with
              | none => some c
              | some b => if c.gain > b.gain then some c else best) (some b) =
          some c ∧
        b.gain ≤ c.gain ∧ (c = b ∨ c ∈ l) ∧ ∀ d ∈ l, d.gain ≤ c.gain := by
  intro l
  induction l with
  | nil =>
      intro b
      exact ⟨b, rfl, le_refl _, Or.inl rfl, by simp⟩
  | cons d l ih =>
      intro b
      by_cases hgt : d.gain > b.gain
      · obtain ⟨c, hc, hdc, hmem, hall⟩ := ih d
        refine ⟨c, ?_, ?_, ?_, ?_⟩
        · simpa [hgt] using hc
        · exact le_trans (le_of_lt hgt) hdc
        · rcases hmem with rfl | h
          · exact Or.inr (List.mem_cons_self _ _)
          · exact Or.inr (List.mem_cons_of_mem _ h)
        · intro d' hd'
          rcases List.mem_cons.mp hd' with rfl | h
          · exact hdc
          · exact hall d' h
      · obtain ⟨c, hc, hbc, hmem, hall⟩ := ih b
        refine ⟨c, ?_, hbc, ?_, ?_⟩
        · simpa [hgt] using hc
        · rcases hmem with rfl | h
          · exact Or.inl rfl
          · exact Or.inr (List.mem_cons_of_mem _ h)
        · intro d' hd'
          rcases List.mem_cons.mp hd' with rfl | h
          · exact le_trans (not_lt.mp hgt) hbc
          · exact hall d' h

/-- The `best_move` fold returns a member of the candidate list whose gain
bounds every candidate's gain (the first maximum, by the strict `>`
update). -/
lemma bestMove_spec {l : List Cand} {cd : Cand} (h : bestMove l = some cd) :
    cd ∈ l ∧ ∀ d ∈ l, d.gain ≤ cd.gain := by
  cases l with
  | nil => cases h
  | cons d l =>
      obtain ⟨c, hc, hdc, hmem, hall⟩ := bestMove_aux l d
      have hbm : bestMove (d :: l) = some c := by
        unfold bestMove
        simpa using hc
      rw [h] at hbm
      have hcd : cd = c := by injection hbm
      subst hcd
      constructor
      · rcases hmem with rfl | hmem
        · exact List.mem_cons_self _ _
        · exact List.mem_cons_of_mem _ hmem
      · intro d' hd'
        rcases List.mem_cons.mp hd' with rfl | hmem'
        · exact hdc
        · exact hall d' hmem'

lemma bestMove_eq_none {l : List Cand} (h : bestMove l = none) : l = [] := by
  cases l with
  | nil => rfl
  | cons d l =>
      obtain ⟨c, hc, -, -, -⟩ := bestMove_aux l d
      have hbm : bestMove (d :: l) = some c := by
        unfold bestMove
        simpa using hc
      rw [h] at hbm
      cases hbm

/-! ## The candidate stream -/

lemma mem_neighborTargets {g : Graph} {m : ℕ → Option ℕ} {n t : ℕ} :
    t ∈ neighborTargets g m n ↔ ∃ x ∈ allNeighbors g n, m x = some t := by
  simp [neighborTargets, List.mem_dedup, List.mem_filterMap]

lemma mem_candsForNode {g : Graph} {aN aD : ℤ} {parts : List (Finset ℕ)}
    {m : ℕ → Option ℕ} {n : ℕ} {cd : Cand} :
    cd ∈ candsForNode g aN aD parts m n ↔
      ∃ c t, m n = some c ∧ t ∈ neighborTargets g m n ∧ t ≠ c ∧
        cd = ⟨n, c, t, totalGainSc g aN aD parts m n c t⟩ := by
  unfold candsForNode
  cases hmn : m n with
  | none => simp
  | some c0 =>
      simp only [List.mem_map, List.mem_filter, decide_eq_true_eq,
        Option.some.injEq]
      constructor
      · rintro ⟨t, ⟨htmem, htne⟩, rfl⟩
        exact ⟨c0, t, rfl, htmem, htne, rfl⟩
      · rintro ⟨c, t, rfl, htmem, htne, rfl⟩
        exact ⟨t, ⟨htmem, htne⟩, rfl⟩

lemma candsForNode_props {g : Graph} {aN aD : ℤ} {parts : List (Finset ℕ)}
    {m : ℕ → Option ℕ} {n : ℕ} {cd : Cand}
    (h : cd ∈ candsForNode g aN aD parts m n) :
    cd.node = n ∧ m n = some cd.cur ∧ cd.target ≠ cd.cur ∧
      (∃ x ∈ allNeighbors g n, m x = some cd.target) ∧
      cd.gain = totalGainSc g aN aD parts m n cd.cur cd.target := by
  obtain ⟨c, t, hmn, htmem, htne, rfl⟩ := mem_candsForNode.mp h
  exact ⟨rfl, hmn, htne, mem_neighborTargets.mp htmem, rfl⟩

lemma mem_passCands {g : Graph} {aN aD : ℤ} {st : PState} {ord : List ℕ}
    {cd : Cand} :
    cd ∈ passCands g aN aD st ord ↔
      ∃ n ∈ ord, cd ∈ candsForNode g aN aD st.partitions st.m n :=
  List.mem_flatMap

lemma candsForNode_complete {g : Graph} {aN aD : ℤ}
    {parts : List (Finset ℕ)} {m : ℕ → Option ℕ} {n c t : ℕ}
    (hmn : m n = some c) (ht : t ∈ neighborTargets g m n) (htc : t ≠ c) :
    (⟨n, c, t, totalGainSc g aN aD parts m n c t⟩ : Cand) ∈
      candsForNode g aN aD parts m n :=
  mem_candsForNode.mpr ⟨c, t, hmn, ht, htc, rfl⟩

/-! ## Effect of `applyMove` on the shared state -/

lemma applyMove_length (st : PState) (cd : Cand) :
    (applyMove st cd).partitions.length = st.partitions.length := by
  simp [applyMove]

lemma applyMove_getD (st : PState) (cd : Cand) (hct : cd.target ≠ cd.cur)
    (hclen : cd.cur < st.partitions.length)
    (htlen : cd.target < st.partitions.length) :
    (applyMove st cd).partitions.getD cd.target ∅ =
        insert cd.node (st.partitions.getD cd.target ∅) ∧
      (applyMove st cd).partitions.getD cd.cur ∅ =
        (st.partitions.getD cd.cur ∅).erase cd.node ∧
      ∀ i, i ≠ cd.cur → i ≠ cd.target →
        (applyMove st cd).partitions.getD i ∅ = st.partitions.getD i ∅ := by
  unfold applyMove
  refine ⟨?_, ?_, ?_⟩
  · rw [getD_set_self (by simpa using htlen),
      getD_set_ne (fun h => hct h.symm)]
  · rw [getD_set_ne hct, getD_set_self hclen]
  · intro i hic hit
    rw [getD_set_ne (fun h => hit h.symm), getD_set_ne (fun h => hic h.symm)]

/-- Applying a well-formed move keeps the node → partition map and the
partition list consistent (spec §3 / §5: "both updated together"). -/
lemma applyMove_agrees {st : PState} {cd : Cand}
    (hA : Agrees st.m st.partitions)
    (hm : st.m cd.node = some cd.cur)
    (htlen : cd.target < st.partitions.length)
    (hct : cd.target ≠ cd.cur) :
    Agrees (applyMove st cd).m (applyMove st cd).partitions := by
  have hclen : cd.cur < st.partitions.length := ((hA _ _).mp hm).1
  have hnode : cd.node ∈ st.partitions.getD cd.cur ∅ := ((hA _ _).mp hm).2
  obtain ⟨hgt, hgc, hgo⟩ := applyMove_getD st cd hct hclen htlen
  have hlen : (applyMove st cd).partitions.length = st.partitions.length :=
    applyMove_length st cd
  intro x i
  unfold memPart
  rw [hlen]
  show updateMap st.m cd.node cd.target x = some i ↔ _
  unfold updateMap
  by_cases hx : x = cd.node
  · subst hx
    rw [if_pos rfl]
    constructor
    · intro hsome
      have hit : i = cd.target := by
        symm
        injection hsome
      subst hit
      exact ⟨htlen, by rw [hgt]; exact Finset.mem_insert_self _ _⟩
    · rintro ⟨hi, hmem⟩
      by_cases hit : i = cd.target
      · rw [hit]
      · exfalso
        by_cases hic : i = cd.cur
        · subst hic
          rw [hgc] at hmem
          exact (Finset.not_mem_erase _ _) hmem
        · rw [hgo i hic hit] at hmem
          have := (hA cd.node i).mpr ⟨hi, hmem⟩
          rw [hm] at this
          have hci : cd.cur = i := by injection this
          exact hic hci.symm
  · rw [if_neg hx]
    constructor
    · intro hmx
      have hi : i < st.partitions.length := ((hA x i).mp hmx).1
      have hmem : x ∈ st.partitions.getD i ∅ := ((hA x i).mp hmx).2
      refine ⟨hi, ?_⟩
      by_cases hit : i = cd.target
      · subst hit
        rw [hgt]
        exact Finset.mem_insert_of_mem hmem
      · by_cases hic : i = cd.cur
        · subst hic
          rw [hgc]
          exact Finset.mem_erase_of_ne_of_mem hx hmem
        · rw [hgo i hic hit]
          exact hmem
    · rintro ⟨hi, hmem⟩
      by_cases hit : i = cd.target
      · subst hit
        rw [hgt] at hmem
        rcases Finset.mem_insert.mp hmem with rfl | hmem'
        · exact absurd rfl hx
        · exact (hA x _).mpr ⟨hi, hmem'⟩
      · by_cases hic : i = cd.cur
        · subst hic
          rw [hgc] at hmem
          exact (hA x _).mpr ⟨hi, (Finset.mem_erase.mp hmem).2⟩
        · rw [hgo i hic hit] at hmem
          exact (hA x i).mpr ⟨hi, hmem⟩

/-- A well-formed move never creates or destroys nodes: the union of the
partitions is invariant. -/
lemma applyMove_unionAll {st : PState} {cd : Cand}
    (hA : Agrees st.m st.partitions)
    (hm : st.m cd.node = some cd.cur)
    (htlen : cd.target < st.partitions.length)
    (hct : cd.target ≠ cd.cur) :
    unionAll (applyMove st cd).partitions = unionAll st.partitions := by
  have hclen : cd.cur < st.partitions.length := ((hA _ _).mp hm).1
  obtain ⟨hgt, hgc, hgo⟩ := applyMove_getD st cd hct hclen htlen
  have hlen : (applyMove st cd).partitions.length = st.partitions.length :=
    applyMove_length st cd
  apply Finset.ext
  intro x
  rw [mem_unionAll_idx, mem_unionAll_idx]
  unfold memPart
  by_cases hx : x = cd.node
  · subst hx
    constructor
    · intro _
      exact ⟨cd.cur, hclen, ((hA _ _).mp hm).2⟩
    · intro _
      exact ⟨cd.target, by rw [hlen]; exact htlen,
        by rw [hgt]; exact Finset.mem_insert_self _ _⟩
  · constructor
    · rintro ⟨i, hi, hmem⟩
      rw [hlen] at hi
      refine ⟨i, hi, ?_⟩
      by_cases hit : i = cd.target
      · subst hit
        rw [hgt] at hmem
        rcases Finset.mem_insert.mp hmem with rfl | hmem'
        · exact absurd rfl hx
        · exact hmem'
      · by_cases hic : i = cd.cur
        · subst hic
          rw [hgc] at hmem
          exact (Finset.mem_erase.mp hmem).2
        · rw [hgo i hic hit] at hmem
          exact hmem
    · rintro ⟨i, hi, hmem⟩
      refine ⟨i, by rw [hlen]; exact hi, ?_⟩
      by_cases hit : i = cd.target
      · subst hit
        rw [hgt]
        exact Finset.mem_insert_of_mem hmem
      · by_cases hic : i = cd.cur
        · subst hic
          rw [hgc]
          exact Finset.mem_erase_of_ne_of_mem hx hmem
        · rw [hgo i hic hit]
          exact hmem

/-! ## Relating `calculate_cut_size` on the list to the map-level cut -/

lemma cutSizeM_congr {g : Graph} {m1 m2 : ℕ → Option ℕ}
    (h : ∀ x, m1 x = m2 x) : cutSizeM g m1 = cutSizeM g m2 := by
  unfold cutSizeM
  congr 1
  apply List.filter_congr
  intro e _
  simp [h e.1, h e.2]

lemma mapOf_eq_of_agrees {m : ℕ → Option ℕ} {parts : List (Finset ℕ)}
    (hA : Agrees m parts) : ∀ x, mapOf parts x = m x := by
  intro x
  have hmA := agrees_mapOf (pdisjoint_of_agrees hA)
  cases hmx : m x with
  | some i => exact (hmA x i).mpr ((hA x i).mp hmx)
  | none =>
      cases hmapx : mapOf parts x with
      | none => rfl
      | some j =>
          have := (hA x j).mpr ((hmA x j).mp hmapx)
          rw [hmx] at this
          cases this

lemma calculate_cut_eq {g : Graph} {m : ℕ → Option ℕ}
    {parts : List (Finset ℕ)} (hA : Agrees m parts) :
    calculate_cut_size g parts = cutSizeM g m :=
  cutSizeM_congr (mapOf_eq_of_agrees hA)

/-! ## The balancing loop: case analysis and inductive invariants -/

lemma ioLoop_succ_cases (g : Graph) (aN aD : ℤ) (ord : PState → List ℕ)
    (f : ℕ) (st : PState) :
    (boundaryFinset g st.m = ∅ ∧
        ioLoop g aN aD ord (f + 1) st = ⟨st, 1, 0, true⟩) ∨
      (boundaryFinset g st.m ≠ ∅ ∧
        bestMove (passCands g aN aD st (ord st)) = none ∧
        ioLoop g aN aD ord (f + 1) st = ⟨st, 1, 0, true⟩) ∨
      (∃ cd, boundaryFinset g st.m ≠ ∅ ∧
        bestMove (passCands g aN aD st (ord st)) = some cd ∧ cd.gain > 0 ∧
        ioLoop g aN aD ord (f + 1) st =
          ⟨(ioLoop g aN aD ord f (applyMove st cd)).state,
            (ioLoop g aN aD ord f (applyMove st cd)).passes + 1,
            (ioLoop g aN aD ord f (applyMove st cd)).moves + 1,
            (ioLoop g aN aD ord f (applyMove st cd)).normal⟩) ∨
      (∃ cd, boundaryFinset g st.m ≠ ∅ ∧
        bestMove (passCands g aN aD st (ord st)) = some cd ∧ ¬cd.gain > 0 ∧
        ioLoop g aN aD ord (f + 1) st = ⟨st, 1, 0, true⟩) := by
  by_cases hb : boundaryFinset g st.m = ∅
  · exact Or.inl ⟨hb, by simp [ioLoop, hb]⟩
  · cases hbm : bestMove (passCands g aN aD st (ord st)) with
    | none =>
        exact Or.inr (Or.inl ⟨hb, rfl, by simp [ioLoop, hb, hbm]⟩)
    | some cd =>
        by_cases hg : cd.gain > 0
        · exact Or.inr (Or.inr (Or.inl
            ⟨cd, hb, rfl, hg, by simp [ioLoop, hb, hbm, hg]⟩))
        · exact Or.inr (Or.inr (Or.inr
            ⟨cd, hb, rfl, hg, by simp [ioLoop, hb, hbm, hg]⟩))

/-- Facts about a winning move: it is a generated candidate of the pass. -/
lemma bestMove_passCands_props {g : Graph} {aN aD : ℤ} {st : PState}
    {ord : List ℕ} {cd : Cand}
    (h : bestMove (passCands g aN aD st ord) = some cd) :
    st.m cd.node = some cd.cur ∧ cd.target ≠ cd.cur ∧
      (∃ x, st.m x = some cd.target) ∧
      cd.gain = totalGainSc g aN aD st.partitions st.m cd.node cd.cur cd.target := by
  obtain ⟨hmem, -⟩ := bestMove_spec h
  obtain ⟨n, -, hcand⟩ := mem_passCands.mp hmem
  obtain ⟨hnode, hmn, hct, ⟨x, -, hx⟩, hgain⟩ := candsForNode_props hcand
  subst hnode
  exact ⟨hmn, hct, ⟨x, hx⟩, hgain⟩

/-- The loop executes at most `fuel` passes and applies at most one move per
pass. -/
lemma ioLoop_bounds (g : Graph) (aN aD : ℤ) (ord : PState → List ℕ) :
    ∀ (fuel : ℕ) (st : PState),
      (ioLoop g aN aD ord fuel st).passes ≤ fuel ∧
        (ioLoop g aN aD ord fuel st).moves ≤ (ioLoop g aN aD ord fuel st).passes := by
  intro fuel
  induction fuel with
  | zero => intro st; simp [ioLoop]
  | succ f ih =>
      intro st
      rcases ioLoop_succ_cases g aN aD ord f st with
        ⟨-, heq⟩ | ⟨-, -, heq⟩ | ⟨cd, -, -, -, heq⟩ | ⟨cd, -, -, -, heq⟩ <;>
        rw [heq]
      · simp
      · simp
      · have := ih (applyMove st cd)
        constructor
        · simpa using Nat.succ_le_succ this.1
        · simpa using Nat.succ_le_succ this.2
      · simp

/-- The loop never changes the number of partition slots. -/
lemma ioLoop_length (g : Graph) (aN aD : ℤ) (ord : PState → List ℕ) :
    ∀ (fuel : ℕ) (st : PState),
      (ioLoop g aN aD ord fuel st).state.partitions.length =
        st.partitions.length := by
  intro fuel
  induction fuel with
  | zero => intro st; simp [ioLoop]
  | succ f ih =>
      intro st
      rcases ioLoop_succ_cases g aN aD ord f st with
        ⟨-, heq⟩ | ⟨-, -, heq⟩ | ⟨cd, -, -, -, heq⟩ | ⟨cd, -, -, -, heq⟩
      · rw [heq]
      · rw [heq]
      · rw [heq]
        show (ioLoop g aN aD ord f (applyMove st cd)).state.partitions.length = _
        rw [ih (applyMove st cd), applyMove_length]
      · rw [heq]

/-- Map/list consistency and the node inventory are loop invariants. -/
lemma ioLoop_preserves (g : Graph) (aN aD : ℤ) (ord : PState → List ℕ) :
    ∀ (fuel : ℕ) (st : PState), Agrees st.m st.partitions →
      Agrees (ioLoop g aN aD ord fuel st).state.m
          (ioLoop g aN aD ord fuel st).state.partitions ∧
        unionAll (ioLoop g aN aD ord fuel st).state.partitions =
          unionAll st.partitions := by
  intro fuel
  induction fuel with
  | zero => intro st hA; exact ⟨hA, rfl⟩
  | succ f ih =>
      intro st hA
      rcases ioLoop_succ_cases g aN aD ord f st with
        ⟨-, heq⟩ | ⟨-, -, heq⟩ | ⟨cd, -, hbm, -, heq⟩ | ⟨cd, -, -, -, heq⟩ <;>
        rw [heq]
      · exact ⟨hA, rfl⟩
      · exact ⟨hA, rfl⟩
      · obtain ⟨hmn, hct, ⟨x, hx⟩, -⟩ := bestMove_passCands_props hbm
        have htlen : cd.target < st.partitions.length := ((hA x _).mp hx).1
        have hA' := applyMove_agrees hA hmn htlen hct
        have hU' := applyMove_unionAll hA hmn htlen hct
        obtain ⟨hAf, hUf⟩ := ih (applyMove st cd) hA'
        exact ⟨hAf, by rw [hUf, hU']⟩
      · exact ⟨hA, rfl⟩

/-- With `io_balance_alpha = 0` every applied move has a strictly positive
`cut_gain`, so the map-level cut size never increases along the loop. -/
lemma ioLoop_cut_mono (g : Graph) (aD : ℤ) (haD : 0 < aD)
    (ord : PState → List ℕ) :
    ∀ (fuel : ℕ) (st : PState), Agrees st.m st.partitions →
      cutSizeM g (ioLoop g 0 aD ord fuel st).state.m ≤ cutSizeM g st.m := by
  intro fuel
  induction fuel with
  | zero => intro st _; exact le_refl _
  | succ f ih =>
      intro st hA
      rcases ioLoop_succ_cases g 0 aD ord f st with
        ⟨-, heq⟩ | ⟨-, -, heq⟩ | ⟨cd, -, hbm, hg, heq⟩ | ⟨cd, -, -, -, heq⟩
      · rw [heq]
      · rw [heq]
      · rw [heq]
        show cutSizeM g (ioLoop g 0 aD ord f (applyMove st cd)).state.m ≤
          cutSizeM g st.m
        obtain ⟨hmn, hct, ⟨x, hx⟩, hgain⟩ := bestMove_passCands_props hbm
        have htlen : cd.target < st.partitions.length := ((hA x _).mp hx).1
        have hA' := applyMove_agrees hA hmn htlen hct
        have hcg : 0 < cutGain g st.m cd.node cd.cur cd.target := by
          rw [hgain] at hg
          unfold totalGainSc at hg
          have h0 : (0 : ℤ) < aD * cutGain g st.m cd.node cd.cur cd.target := by
            simpa using hg
          rcases mul_pos_iff.mp h0 with ⟨-, hx⟩ | ⟨ha, -⟩
          · exact hx
          · exact absurd haD (not_lt.mpr (le_of_lt ha))
        have hstep :
            cutSizeM g (applyMove st cd).m ≤ cutSizeM g st.m := by
          have heqc := cutSizeM_update g hmn (Ne.symm hct)
          have hloop0 : (0 : ℤ) ≤ (loopCount g cd.node : ℤ) := Int.ofNat_nonneg _
          show cutSizeM g (updateMap st.m cd.node cd.target) ≤ cutSizeM g st.m
          omega
        exact le_trans (ih (applyMove st cd) hA') hstep
      · rw [heq]

/-- Upon a `break` (normal termination) the final state admits no candidate
move of positive (scaled) total gain. -/
lemma ioLoop_local_opt (g : Graph) (aN aD : ℤ) (ord : PState → List ℕ) :
    ∀ (fuel : ℕ) (st : PState),
      (ord (ioLoop g aN aD ord fuel st).state).toFinset =
          boundaryFinset g (ioLoop g aN aD ord fuel st).state.m →
      (ioLoop g aN aD ord fuel st).normal = true →
      ∀ n ∈ boundaryFinset g (ioLoop g aN aD ord fuel st).state.m,
        ∀ c, (ioLoop g aN aD ord fuel st).state.m n = some c →
        ∀ t ∈ neighborTargets g (ioLoop g aN aD ord fuel st).state.m n, t ≠ c →
          totalGainSc g aN aD (ioLoop g aN aD ord fuel st).state.partitions
            (ioLoop g aN aD ord fuel st).state.m n c t ≤ 0 := by
  intro fuel
  induction fuel with
  | zero =>
      intro st hord hnorm
      simp [ioLoop] at hnorm
  | succ f ih =>
      intro st hord hnorm
      rcases ioLoop_succ_cases g aN aD ord f st with
        ⟨hb, heq⟩ | ⟨hb, hbm, heq⟩ | ⟨cd, hb, hbm, hg, heq⟩ | ⟨cd, hb, hbm, hg, heq⟩
      · rw [heq]
        intro n hn c _ t _ _
        exfalso
        have hmem : n ∈ boundaryFinset g st.m := hn
        rw [hb] at hmem
        exact Finset.not_mem_empty n hmem
      · rw [heq] at hord ⊢
        have hord' : (ord st).toFinset = boundaryFinset g st.m := hord
        intro n hn c hc t htmem htc
        exfalso
        have hcands : passCands g aN aD st (ord st) = [] := bestMove_eq_none hbm
        have hn' : n ∈ boundaryFinset g st.m := hn
        have hc' : st.m n = some c := hc
        have htmem' : t ∈ neighborTargets g st.m n := htmem
        have hnord : n ∈ ord st := by
          rw [← List.mem_toFinset, hord']
          exact hn'
        have : (⟨n, c, t, totalGainSc g aN aD st.partitions st.m n c t⟩ : Cand) ∈
            passCands g aN aD st (ord st) :=
          mem_passCands.mpr ⟨n, hnord, candsForNode_complete hc' htmem' htc⟩
        rw [hcands] at this
        cases this
      · rw [heq] at hord hnorm ⊢
        exact ih (applyMove st cd) hord hnorm
      · rw [heq] at hord ⊢
        have hord' : (ord st).toFinset = boundaryFinset g st.m := hord
        intro n hn c hc t htmem htc
        have hn' : n ∈ boundaryFinset g st.m := hn
        have hc' : st.m n = some c := hc
        have htmem' : t ∈ neighborTargets g st.m n := htmem
        have hnord : n ∈ ord st := by
          rw [← List.mem_toFinset, hord']
          exact hn'
        have hcand : (⟨n, c, t, totalGainSc g aN aD st.partitions st.m n c t⟩ : Cand) ∈
            passCands g aN aD st (ord st) :=
          mem_passCands.mpr ⟨n, hnord, candsForNode_complete hc' htmem' htc⟩
        obtain ⟨-, hall⟩ := bestMove_spec hbm
        have hle := hall _ hcand
        simp only [not_lt] at hg
        show totalGainSc g aN aD st.partitions st.m n c t ≤ 0
        exact le_trans hle hg

/-! ## Phase 1: distributing the cluster labels -/

lemma getD_replicate {k i : ℕ} :
    (List.replicate k (∅ : Finset ℕ)).getD i ∅ = ∅ := by
  induction k generalizing i with
  | zero => cases i <;> rfl
  | succ k ih => cases i with
    | zero => rfl
    | succ i => exact ih

lemma unionAll_replicate (k : ℕ) :
    unionAll (List.replicate k (∅ : Finset ℕ)) = ∅ := by
  induction k with
  | zero => rfl
  | succ k ih =>
      show (∅ : Finset ℕ) ∪ unionAll (List.replicate k ∅) = ∅
      rw [ih, Finset.union_empty]

lemma pdisjoint_replicate (k : ℕ) :
    PDisjoint (List.replicate k (∅ : Finset ℕ)) := by
  rw [pdisjoint_iff]
  intro i j _ _ _
  rw [getD_replicate, getD_replicate]
  exact Finset.disjoint_empty_left _

lemma assign_fold_length :
    ∀ (L : List (ℕ × ℕ)) (parts : List (Finset ℕ)),
      (L.foldl (fun ps nl => ps.set nl.2 (insert nl.1 (ps.getD nl.2 ∅)))
          parts).length = parts.length := by
  intro L
  induction L with
  | nil => intro parts; rfl
  | cons a L ih =>
      intro parts
      rw [List.foldl_cons, ih, List.length_set]

lemma assignClusters_length (nodes labels : List ℕ) (k : ℕ) :
    (assignClusters nodes labels k).length = k := by
  unfold assignClusters
  rw [assign_fold_length, List.length_replicate]

lemma assign_fold_spec :
    ∀ (L : List (ℕ × ℕ)) (parts : List (Finset ℕ)),
      (L.map Prod.fst).Nodup →
      (∀ nl ∈ L, nl.2 < parts.length) →
      (∀ nl ∈ L, nl.1 ∉ unionAll parts) →
      PDisjoint parts →
      PDisjoint
          (L.foldl (fun ps nl => ps.set nl.2 (insert nl.1 (ps.getD nl.2 ∅)))
            parts) ∧
        unionAll
            (L.foldl (fun ps nl => ps.set nl.2 (insert nl.1 (ps.getD nl.2 ∅)))
              parts) =
          unionAll parts ∪ (L.map Prod.fst).toFinset := by
  intro L
  induction L with
  | nil =>
      intro parts _ _ _ hd
      exact ⟨hd, by simp⟩
  | cons a L ih =>
      intro parts hnd hlab hfresh hd
      rw [List.map_cons] at hnd
      obtain ⟨hna, hndL⟩ := List.nodup_cons.mp hnd
      have hlab_a : a.2 < parts.length := hlab a (List.mem_cons_self _ _)
      have hfresh_a : a.1 ∉ unionAll parts := hfresh a (List.mem_cons_self _ _)
      set parts1 :=
        parts.set a.2 (insert a.1 (parts.getD a.2 ∅)) with hparts1
      have hlen1 : parts1.length = parts.length := List.length_set _ _ _
      have hgD : ∀ i, i ≠ a.2 → parts1.getD i ∅ = parts.getD i ∅ :=
        fun i hi => getD_set_ne (fun h => hi h.symm) _ _
      have hgA : parts1.getD a.2 ∅ = insert a.1 (parts.getD a.2 ∅) :=
        getD_set_self hlab_a _ _
      have hnotmem : ∀ i, i < parts.length → a.1 ∉ parts.getD i ∅ := by
        intro i hi hmem
        exact hfresh_a (mem_unionAll_idx.mpr ⟨i, hi, hmem⟩)
      have hd1 : PDisjoint parts1 := by
        rw [pdisjoint_iff]
        rw [pdisjoint_iff] at hd
        intro i j hi hj hij
        rw [hlen1] at hi hj
        by_cases hia : i = a.2
        · subst hia
          rw [hgA, hgD j (fun h => hij h.symm)]
          rw [Finset.disjoint_insert_left]
          exact ⟨hnotmem j hj, hd a.2 j hi hj hij⟩
        · rw [hgD i hia]
          by_cases hja : j = a.2
          · subst hja
            rw [hgA, Finset.disjoint_insert_right]
            exact ⟨hnotmem i hi, hd i a.2 hi hj hij⟩
          · rw [hgD j hja]
            exact hd i j hi hj hij
      have hu1 : unionAll parts1 = unionAll parts ∪ {a.1} := by
        apply Finset.ext
        intro x
        rw [mem_unionAll_idx, Finset.mem_union, mem_unionAll_idx]
        constructor
        · rintro ⟨i, hi, hx⟩
          rw [hlen1] at hi
          by_cases hia : i = a.2
          · subst hia
            rw [hgA] at hx
            rcases Finset.mem_insert.mp hx with rfl | hx'
            · exact Or.inr (Finset.mem_singleton_self _)
            · exact Or.inl ⟨a.2, hi, hx'⟩
          · rw [hgD i hia] at hx
            exact Or.inl ⟨i, hi, hx⟩
        · rintro (⟨i, hi, hx⟩ | hx)
          · refine ⟨i, by rw [hlen1]; exact hi, ?_⟩
            by_cases hia : i = a.2
            · subst hia
              rw [hgA]
              exact Finset.mem_insert_of_mem hx
            · rw [hgD i hia]
              exact hx
          · rw [Finset.mem_singleton] at hx
            subst hx
            refine ⟨a.2, by rw [hlen1]; exact hlab_a, ?_⟩
            rw [hgA]
            exact Finset.mem_insert_self _ _
      have hlabL : ∀ nl ∈ L, nl.2 < parts1.length := by
        intro nl hnl
        rw [hlen1]
        exact hlab nl (List.mem_cons_of_mem _ hnl)
      have hfreshL : ∀ nl ∈ L, nl.1 ∉ unionAll parts1 := by
        intro nl hnl
        rw [hu1, Finset.mem_union]
        rintro (h | h)
        · exact hfresh nl (List.mem_cons_of_mem _ hnl) h
        · rw [Finset.mem_singleton] at h
          exact hna (h ▸ List.mem_map_of_mem Prod.fst hnl)
      obtain ⟨hdf, huf⟩ := ih parts1 hndL hlabL hfreshL hd1
      refine ⟨by rw [List.foldl_cons]; exact hdf, ?_⟩
      rw [List.foldl_cons]
      have h1 :
          unionAll
              (L.foldl (fun ps nl => ps.set nl.2 (insert nl.1 (ps.getD nl.2 ∅)))
                (parts.set a.2 (insert a.1 (parts.getD a.2 ∅)))) =
            unionAll parts1 ∪ (L.map Prod.fst).toFinset := huf
      rw [h1, hu1, Finset.union_assoc, List.map_cons, List.toFinset_cons,
        Finset.insert_eq]

lemma assignClusters_spec (nodes labels : List ℕ) (k : ℕ)
    (hnd : nodes.Nodup) (hlen : labels.length = nodes.length)
    (hlab : ∀ l ∈ labels, l < k) :
    PDisjoint (assignClusters nodes labels k) ∧
      unionAll (assignClusters nodes labels k) = nodes.toFinset := by
  have hfst : (nodes.zip labels).map Prod.fst = nodes :=
    List.map_fst_zip nodes labels (le_of_eq hlen.symm)
  have h := assign_fold_spec (nodes.zip labels) (List.replicate k ∅)
    (by rw [hfst]; exact hnd)
    (by
      intro nl hnl
      rw [List.length_replicate]
      exact hlab nl.2 (List.of_mem_zip hnl).2)
    (by
      intro nl _
      rw [unionAll_replicate]
      exact Finset.not_mem_empty _)
    (pdisjoint_replicate k)
  obtain ⟨hd, hu⟩ := h
  refine ⟨hd, ?_⟩
  unfold assignClusters
  rw [hu, unionAll_replicate, hfst, Finset.empty_union]

/-! ## Phase 2: the pairwise refinement fold -/

lemma klPhase_length (klB : Finset ℕ → Finset ℕ → Finset ℕ × Finset ℕ) :
    ∀ (pairs : List (ℕ × ℕ)) (parts : List (Finset ℕ)),
      (klPhase klB pairs parts).length = parts.length := by
  intro pairs
  induction pairs with
  | nil => intro parts; rfl
  | cons ij pairs ih =>
      intro parts
      show (klPhase klB pairs _).length = _
      rw [ih, List.length_set, List.length_set]

lemma klPhase_spec (klB : Finset ℕ → Finset ℕ → Finset ℕ × Finset ℕ)
    (hkl : ∀ A B, Disjoint A B →
      (klB A B).1 ∪ (klB A B).2 = A ∪ B ∧ Disjoint (klB A B).1 (klB A B).2) :
    ∀ (pairs : List (ℕ × ℕ)) (parts : List (Finset ℕ)),
      (∀ p ∈ pairs, p.1 < p.2 ∧ p.2 < parts.length) → PDisjoint parts →
      PDisjoint (klPhase klB pairs parts) ∧
        unionAll (klPhase klB pairs parts) = unionAll parts := by
  intro pairs
  induction pairs with
  | nil => intro parts _ hd; exact ⟨hd, rfl⟩
  | cons ij pairs ih =>
      intro parts hb hd
      obtain ⟨hij, hjlen⟩ := hb ij (List.mem_cons_self _ _)
      have hilen : ij.1 < parts.length := lt_trans hij hjlen
      have hne : ij.1 ≠ ij.2 := Nat.ne_of_lt hij
      have hdAB : Disjoint (parts.getD ij.1 ∅) (parts.getD ij.2 ∅) :=
        (pdisjoint_iff.mp hd) _ _ hilen hjlen hne
      obtain ⟨hU, hD⟩ := hkl (parts.getD ij.1 ∅) (parts.getD ij.2 ∅) hdAB
      set A' := (klB (parts.getD ij.1 ∅) (parts.getD ij.2 ∅)).1 with hA'
      set B' := (klB (parts.getD ij.1 ∅) (parts.getD ij.2 ∅)).2 with hB'
      set parts1 := (parts.set ij.1 A').set ij.2 B' with hparts1
      have hlen1 : parts1.length = parts.length := by
        rw [hparts1, List.length_set, List.length_set]
      have hgB : parts1.getD ij.2 ∅ = B' := by
        rw [hparts1]
        exact getD_set_self (by rw [List.length_set]; exact hjlen) _ _
      have hgA : parts1.getD ij.1 ∅ = A' := by
        rw [hparts1, getD_set_ne (fun h => hne h.symm), getD_set_self hilen]
      have hgO : ∀ i, i ≠ ij.1 → i ≠ ij.2 → parts1.getD i ∅ = parts.getD i ∅ := by
        intro i h1 h2
        rw [hparts1, getD_set_ne (fun h => h2 h.symm),
          getD_set_ne (fun h => h1 h.symm)]
      have hsubA : A' ⊆ parts.getD ij.1 ∅ ∪ parts.getD ij.2 ∅ := by
        rw [← hU]
        exact Finset.subset_union_left
      have hsubB : B' ⊆ parts.getD ij.1 ∅ ∪ parts.getD ij.2 ∅ := by
        rw [← hU]
        exact Finset.subset_union_right
      have hdother : ∀ b, b < parts.length → b ≠ ij.1 → b ≠ ij.2 →
          Disjoint (parts.getD ij.1 ∅ ∪ parts.getD ij.2 ∅) (parts.getD b ∅) := by
        intro b hblen hb1 hb2
        rw [Finset.disjoint_union_left]
        exact ⟨(pdisjoint_iff.mp hd) _ _ hilen hblen (fun h => hb1 h.symm),
          (pdisjoint_iff.mp hd) _ _ hjlen hblen (fun h => hb2 h.symm)⟩
      have hd1 : PDisjoint parts1 := by
        rw [pdisjoint_iff]
        intro a b ha hb' hab
        rw [hlen1] at ha hb'
        by_cases ha2 : a = ij.2
        · subst ha2
          rw [hgB]
          by_cases hb1 : b = ij.1
          · subst hb1
            rw [hgA]
            exact hD.symm
          · by_cases hb2 : b = ij.2
            · exact absurd hb2.symm hab
            · rw [hgO b hb1 hb2]
              exact Finset.disjoint_of_subset_left hsubB
                (hdother b hb' hb1 hb2)
        · by_cases ha1 : a = ij.1
          · subst ha1
            rw [hgA]
            by_cases hb2 : b = ij.2
            · subst hb2
              rw [hgB]
              exact hD
            · by_cases hb1 : b = ij.1
              · exact absurd hb1.symm hab
              · rw [hgO b hb1 hb2]
                exact Finset.disjoint_of_subset_left hsubA
                  (hdother b hb' hb1 hb2)
          · rw [hgO a ha1 ha2]
            by_cases hb2 : b = ij.2
            · subst hb2
              rw [hgB]
              exact (Finset.disjoint_of_subset_left hsubB
                (hdother a ha ha1 ha2)).symm
            · by_cases hb1 : b = ij.1
              · subst hb1
                rw [hgA]
                exact (Finset.disjoint_of_subset_left hsubA
                  (hdother a ha ha1 ha2)).symm
              · rw [hgO b hb1 hb2]
                exact (pdisjoint_iff.mp hd) _ _ ha hb' hab
      have hu1 : unionAll parts1 = unionAll parts := by
        apply Finset.ext
        intro x
        rw [mem_unionAll_idx, mem_unionAll_idx]
        constructor
        · rintro ⟨a, ha, hx⟩
          rw [hlen1] at ha
          by_cases ha2 : a = ij.2
          · subst ha2
            rw [hgB] at hx
            rcases Finset.mem_union.mp (hsubB hx) with h | h
            · exact ⟨ij.1, hilen, h⟩
            · exact ⟨ij.2, ha, h⟩
          · by_cases ha1 : a = ij.1
            · subst ha1
              rw [hgA] at hx
              rcases Finset.mem_union.mp (hsubA hx) with h | h
              · exact ⟨ij.1, ha, h⟩
              · exact ⟨ij.2, hjlen, h⟩
            · rw [hgO a ha1 ha2] at hx
              exact ⟨a, ha, hx⟩
        · rintro ⟨a, ha, hx⟩
          by_cases ha2 : a = ij.2
          · subst ha2
            have hx' : x ∈ A' ∪ B' := by
              rw [hU]
              exact Finset.mem_union_right _ hx
            rcases Finset.mem_union.mp hx' with h | h
            · exact ⟨ij.1, by rw [hlen1]; exact hilen, by rw [hgA]; exact h⟩
            · exact ⟨ij.2, by rw [hlen1]; exact ha, by rw [hgB]; exact h⟩
          · by_cases ha1 : a = ij.1
            · subst ha1
              have hx' : x ∈ A' ∪ B' := by
                rw [hU]
                exact Finset.mem_union_left _ hx
              rcases Finset.mem_union.mp hx' with h | h
              · exact ⟨ij.1, by rw [hlen1]; exact ha, by rw [hgA]; exact h⟩
              · exact ⟨ij.2, by rw [hlen1]; exact hjlen, by rw [hgB]; exact h⟩
            · exact ⟨a, by rw [hlen1]; exact ha,
                by rw [hgO a ha1 ha2]; exact hx⟩
      have hbL : ∀ p ∈ pairs, p.1 < p.2 ∧ p.2 < parts1.length := by
        intro p hp
        rw [hlen1]
        exact hb p (List.mem_cons_of_mem _ hp)
      obtain ⟨hdf, huf⟩ := ih parts1 hbL hd1
      have hstep : klPhase klB (ij :: pairs) parts = klPhase klB pairs parts1 := by
        rw [hparts1, hA', hB']
        rfl
      rw [hstep]
      exact ⟨hdf, by rw [huf, hu1]⟩

/-! ## Enumerations and the adjacency scan -/

lemma mem_sortFin {s : Finset ℕ} {x : ℕ} : x ∈ sortFin s ↔ x ∈ s := by
  unfold sortFin
  rw [List.mem_filter]
  simp only [List.mem_range, decide_eq_true_eq, Nat.lt_succ_iff]
  constructor
  · exact fun h => h.2
  · intro h
    refine ⟨?_, h⟩
    rw [Finset.le_fold_max]
    exact Or.inr ⟨x, h, le_refl x⟩

lemma sortFin_toFinset (s : Finset ℕ) : (sortFin s).toFinset = s := by
  apply Finset.ext
  intro x
  rw [List.mem_toFinset, mem_sortFin]

lemma ordAsc_valid (g : Graph) (st : PState) :
    ((ordAsc g) st).toFinset = boundaryFinset g st.m :=
  sortFin_toFinset _

lemma ordDesc_valid (g : Graph) (st : PState) :
    ((ordDesc g) st).toFinset = boundaryFinset g st.m := by
  unfold ordDesc
  rw [List.toFinset_reverse]
  exact sortFin_toFinset _

lemma anyEdgeProbes_true {g : Graph} :
    ∀ l : List (ℕ × ℕ),
      (anyEdgeProbes g l).1 = true ↔
        ∃ p ∈ l, ((p.1, p.2) ∈ g.edges ∨ (p.2, p.1) ∈ g.edges) := by
  intro l
  induction l with
  | nil => simp [anyEdgeProbes]
  | cons p l ih =>
      obtain ⟨u, v⟩ := p
      by_cases h1 : (u, v) ∈ g.edges
      · simp [anyEdgeProbes, hasEdge, h1]
      · by_cases h2 : (v, u) ∈ g.edges
        · simp [anyEdgeProbes, hasEdge, h1, h2]
        · have e1 : hasEdge g u v = false := by simp [hasEdge, h1]
          have e2 : hasEdge g v u = false := by simp [hasEdge, h2]
          have hred : anyEdgeProbes g ((u, v) :: l) =
              ((anyEdgeProbes g l).1, 2 + (anyEdgeProbes g l).2) := by
            simp [anyEdgeProbes, e1, e2]
          rw [hred]
          constructor
          · intro h
            obtain ⟨q, hq, hedge⟩ := ih.mp h
            exact ⟨q, List.mem_cons_of_mem _ hq, hedge⟩
          · rintro ⟨q, hq, hedge⟩
            rcases List.mem_cons.mp hq with rfl | hq'
            · simp only at hedge
              rcases hedge with h | h
              · exact absurd h h1
              · exact absurd h h2
            · exact ih.mpr ⟨q, hq', hedge⟩

lemma mem_pairStream {A B : Finset ℕ} {u v : ℕ} :
    (u, v) ∈ pairStream A B ↔ u ∈ A ∧ v ∈ B := by
  unfold pairStream
  rw [List.mem_flatMap]
  constructor
  · rintro ⟨a, ha, hmem⟩
    rw [List.mem_map] at hmem
    obtain ⟨b, hb, heq⟩ := hmem
    injection heq with e1 e2
    subst e1
    subst e2
    exact ⟨mem_sortFin.mp ha, mem_sortFin.mp hb⟩
  · rintro ⟨hu, hv⟩
    exact ⟨u, mem_sortFin.mpr hu,
      List.mem_map.mpr ⟨v, mem_sortFin.mpr hv, rfl⟩⟩

lemma mem_find_adjacent {g : Graph} {parts : List (Finset ℕ)} {i j : ℕ} :
    (i, j) ∈ find_adjacent_partitions g parts ↔
      i < j ∧ j < parts.length ∧
        ∃ u ∈ parts.getD i ∅, ∃ v ∈ parts.getD j ∅,
          ((u, v) ∈ g.edges ∨ (v, u) ∈ g.edges) := by
  unfold find_adjacent_partitions
  rw [List.mem_flatMap]
  constructor
  · rintro ⟨i', hi', hmem⟩
    rw [List.mem_filterMap] at hmem
    obtain ⟨j', hj', heq⟩ := hmem
    rw [List.mem_range] at hi' hj'
    by_cases hge : i' ≥ j'
    · rw [if_pos hge] at heq
      cases heq
    · rw [if_neg hge] at heq
      by_cases hadj :
          (anyEdgeProbes g (pairStream (parts.getD i' ∅) (parts.getD j' ∅))).1
      · rw [if_pos hadj] at heq
        injection heq with hpair
        injection hpair with e1 e2
        subst e1
        subst e2
        refine ⟨lt_of_not_ge hge, hj', ?_⟩
        obtain ⟨⟨u, v⟩, hp, hedge⟩ := (anyEdgeProbes_true _).mp (by exact hadj)
        obtain ⟨hu, hv⟩ := mem_pairStream.mp hp
        exact ⟨u, hu, v, hv, by simpa using hedge⟩
      · rw [if_neg hadj] at heq
        cases heq
  · rintro ⟨hij, hjlen, u, hu, v, hv, hedge⟩
    refine ⟨i, List.mem_range.mpr (lt_trans hij hjlen), ?_⟩
    rw [List.mem_filterMap]
    refine ⟨j, List.mem_range.mpr hjlen, ?_⟩
    have hadj :
        (anyEdgeProbes g (pairStream (parts.getD i ∅) (parts.getD j ∅))).1 = true :=
      (anyEdgeProbes_true _).mpr
        ⟨(u, v), mem_pairStream.mpr ⟨hu, hv⟩, by simpa using hedge⟩
    rw [if_neg (not_le.mpr hij), if_pos (by exact hadj)]

lemma unionAll_filter_ne (parts : List (Finset ℕ)) :
    unionAll (parts.filter fun p => decide (p ≠ ∅)) = unionAll parts := by
  induction parts with
  | nil => rfl
  | cons p l ih =>
      by_cases hp : p = ∅
      · rw [List.filter_cons, if_neg (by simp [hp])]
        show unionAll _ = p ∪ unionAll l
        rw [ih, hp, Finset.empty_union]
      · rw [List.filter_cons, if_pos (by simp [hp])]
        show p ∪ unionAll _ = p ∪ unionAll l
        rw [ih]

/-! ## Remaining bridges -/

lemma getD_mem_bound {parts : List (Finset ℕ)} {j v : ℕ}
    (h : v ∈ parts.getD j ∅) : j < parts.length := by
  by_contra hj
  rw [List.getD_eq_default _ _ (le_of_not_lt hj)] at h
  exact Finset.not_mem_empty v h

lemma mem_edgeScanAdjacent {g : Graph} {parts : List (Finset ℕ)} {i j : ℕ}
    (hd : PDisjoint parts) :
    (i, j) ∈ edgeScanAdjacent g parts ↔
      i < j ∧ ∃ u ∈ parts.getD i ∅, ∃ v ∈ parts.getD j ∅,
        ((u, v) ∈ g.edges ∨ (v, u) ∈ g.edges) := by
  have hA := agrees_mapOf hd
  unfold edgeScanAdjacent
  rw [List.mem_toFinset, List.mem_filterMap]
  constructor
  · rintro ⟨e, he, hmatch⟩
    cases h1 : mapOf parts e.1 with
    | none => rw [h1] at hmatch; cases hmatch
    | some a =>
        cases h2 : mapOf parts e.2 with
        | none => rw [h1, h2] at hmatch; cases hmatch
        | some b =>
            rw [h1, h2] at hmatch
            simp only at hmatch
            by_cases hab : a < b
            · rw [if_pos hab] at hmatch
              injection hmatch with hpair
              injection hpair with e1 e2
              subst e1
              subst e2
              refine ⟨hab, e.1, ((hA e.1 _).mp h1).2, e.2,
                ((hA e.2 _).mp h2).2, Or.inl (by simpa using he)⟩
            · rw [if_neg hab] at hmatch
              by_cases hba : b < a
              · rw [if_pos hba] at hmatch
                injection hmatch with hpair
                injection hpair with e1 e2
                subst e1
                subst e2
                refine ⟨hba, e.2, ((hA e.2 _).mp h2).2, e.1,
                  ((hA e.1 _).mp h1).2, Or.inr (by simpa using he)⟩
              · rw [if_neg hba] at hmatch
                cases hmatch
  · rintro ⟨hij, u, hu, v, hv, hedge⟩
    have hjlen : j < parts.length := getD_mem_bound hv
    have hilen : i < parts.length := getD_mem_bound hu
    have hmu : mapOf parts u = some i := (hA u i).mpr ⟨hilen, hu⟩
    have hmv : mapOf parts v = some j := (hA v j).mpr ⟨hjlen, hv⟩
    rcases hedge with he | he
    · refine ⟨(u, v), he, ?_⟩
      simp only [hmu, hmv]
      rw [if_pos hij]
    · refine ⟨(v, u), he, ?_⟩
      simp only [hmu, hmv]
      rw [if_neg (not_lt.mpr (le_of_lt hij)), if_pos hij]

lemma loopCount_eq_zero {g : Graph} {n : ℕ} (h : (n, n) ∉ g.edges) :
    loopCount g n = 0 := by
  unfold loopCount
  rw [List.length_eq_zero, List.filter_eq_nil_iff]
  intro e he
  simp only [decide_eq_true_eq]
  rintro rfl
  exact h he

lemma totalGainQ_eq_div (g : Graph) {aN aD : ℤ} (haD : 0 < aD)
    (parts : List (Finset ℕ)) (m : ℕ → Option ℕ) (n c t : ℕ) :
    totalGainQ g ((aN : ℚ) / (aD : ℚ)) parts m n c t =
      (totalGainSc g aN aD parts m n c t : ℚ) / (aD : ℚ) := by
  have hne : (aD : ℚ) ≠ 0 := by
    exact_mod_cast Int.ne_of_gt haD
  unfold totalGainQ totalGainSc
  push_cast
  field_simp
  ring

/-! ## The claims -/

/-- C1: for every input graph (and any behavior of the clustering and
bisection library oracles within their contracts, and any set-iteration
orders), `hybrid_partitioner` returns partitions that are non-empty,
pairwise disjoint, and whose union is the full node set. -/
theorem hybrid_partitioner_sound (g : Graph) (t : ℕ) (aN aD : ℤ)
    (labels : List ℕ) (klB : Finset ℕ → Finset ℕ → Finset ℕ × Finset ℕ)
    (pairList : List (ℕ × ℕ)) (ord : PState → List ℕ)
    (hnd : g.nodes.Nodup)
    (hlen : labels.length = g.nodes.length)
    (hlab : ∀ l ∈ labels, l < kOf g.nodes.length t)
    (hkl : ∀ A B, Disjoint A B →
      (klB A B).1 ∪ (klB A B).2 = A ∪ B ∧ Disjoint (klB A B).1 (klB A B).2)
    (hpairs : ∀ p ∈ pairList, p.1 < p.2 ∧ p.2 < kOf g.nodes.length t) :
    (∀ p ∈ hybrid_partitioner g t aN aD labels klB pairList ord, p ≠ ∅) ∧
      List.Pairwise Disjoint
        (hybrid_partitioner g t aN aD labels klB pairList ord) ∧
      unionAll (hybrid_partitioner g t aN aD labels klB pairList ord) =
        g.nodes.toFinset := by
  by_cases hn : g.nodes.length = 0
  · have hnil : g.nodes = [] := List.length_eq_zero.mp hn
    unfold hybrid_partitioner
    rw [if_pos hn]
    refine ⟨by simp, List.Pairwise.nil, ?_⟩
    rw [hnil]
    rfl
  · unfold hybrid_partitioner
    rw [if_neg hn]
    by_cases hk : kOf g.nodes.length t < 2
    · rw [if_pos hk]
      refine ⟨?_, List.pairwise_singleton _ _, ?_⟩
      · intro p hp
        rw [List.mem_singleton] at hp
        subst hp
        intro hempty
        rw [List.toFinset_eq_empty_iff] at hempty
        exact hn (by rw [hempty]; rfl)
      · show g.nodes.toFinset ∪ ∅ = g.nodes.toFinset
        exact Finset.union_empty _
    · rw [if_neg hk]
      obtain ⟨hd0, hu0⟩ :=
        assignClusters_spec g.nodes labels (kOf g.nodes.length t) hnd hlen hlab
      have hlen0 : (spectralParts g t labels).length = kOf g.nodes.length t :=
        assignClusters_length _ _ _
      have hpairs' :
          ∀ p ∈ pairList, p.1 < p.2 ∧ p.2 < (spectralParts g t labels).length := by
        rw [hlen0]
        exact hpairs
      obtain ⟨hd1, hu1⟩ :=
        klPhase_spec klB hkl pairList (spectralParts g t labels) hpairs' hd0
      have hA1 : Agrees (ioStart g t labels klB pairList).m
          (ioStart g t labels klB pairList).partitions := agrees_mapOf hd1
      obtain ⟨hAf, hUf⟩ := ioLoop_preserves g aN aD ord g.nodes.length
        (ioStart g t labels klB pairList) hA1
      have hAf' : Agrees (ioOut g t aN aD labels klB pairList ord).state.m
          (ioOut g t aN aD labels klB pairList ord).state.partitions := hAf
      have hUf' :
          unionAll (ioOut g t aN aD labels klB pairList ord).state.partitions =
            unionAll (klParts g t labels klB pairList) := hUf
      have hu1' :
          unionAll (klParts g t labels klB pairList) =
            unionAll (spectralParts g t labels) := hu1
      have hu0' : unionAll (spectralParts g t labels) = g.nodes.toFinset := hu0
      refine ⟨?_, ?_, ?_⟩
      · intro p hp
        have := (List.mem_filter.mp hp).2
        simpa using this
      · have hdf : PDisjoint
            (ioOut g t aN aD labels klB pairList ord).state.partitions :=
          pdisjoint_of_agrees hAf'
        have hpw : List.Pairwise Disjoint
            (ioOut g t aN aD labels klB pairList ord).state.partitions := by
          rw [List.pairwise_iff_get]
          intro a b hab
          have h := (pdisjoint_iff.mp hdf) a.1 b.1 a.isLt b.isLt
            (Nat.ne_of_lt hab)
          rw [getD_eq_getElem a.isLt, getD_eq_getElem b.isLt] at h
          exact h
        exact hpw.filter _
      · rw [unionAll_filter_ne, hUf', hu1']
        exact hu0'

theorem hybrid_partitioner_sound_witness :
    gW.nodes.Nodup ∧ [0, 0, 1, 1].length = gW.nodes.length ∧
      (∀ p ∈ hybrid_partitioner gW 2 1 10 [0, 0, 1, 1] klbId [(0, 1)]
          (ordAsc gW), p ≠ ∅) ∧
      List.Pairwise Disjoint
        (hybrid_partitioner gW 2 1 10 [0, 0, 1, 1] klbId [(0, 1)] (ordAsc gW)) ∧
      unionAll
          (hybrid_partitioner gW 2 1 10 [0, 0, 1, 1] klbId [(0, 1)] (ordAsc gW)) =
        gW.nodes.toFinset :=
  ⟨by decide, by decide,
    hybrid_partitioner_sound gW 2 1 10 [0, 0, 1, 1] klbId [(0, 1)] (ordAsc gW)
      (by decide) (by decide) (by decide) (fun A B h => ⟨rfl, h⟩) (by decide)⟩

/-- C2: the pipeline's output is NOT independent of the iteration order of
the boundary-node set: on `gBi` (a two-way edge between nodes 0 and 1, with
spectral labels splitting `{0, 2}` / `{1, 3}` and the identity bisection),
visiting the boundary set ascending versus descending picks different
equal-gain moves and produces different partitions.  Both orders are valid
enumerations of every boundary set the loop consults, as the first two
conjuncts state for the state at which the tie occurs; Python derives this
order from hash-based set iteration, which is not reproducible across runs
for string node ids. -/
theorem hybrid_partitioner_order_dependent :
    ((ordAsc gBi) stBi).toFinset = boundaryFinset gBi stBi.m ∧
      ((ordDesc gBi) stBi).toFinset = boundaryFinset gBi stBi.m ∧
      hybrid_partitioner gBi 2 0 1 [0, 1, 0, 1] klbId [(0, 1)] (ordAsc gBi) ≠
        hybrid_partitioner gBi 2 0 1 [0, 1, 0, 1] klbId [(0, 1)] (ordDesc gBi) :=
  ⟨ordAsc_valid gBi stBi, ordDesc_valid gBi stBi, by decide⟩

/-- C3 (counterexample to the algorithmic part): on `gCross` with partitions
`{0, 1}` and `{2, 3}` and a single (internal) edge, the source's adjacency
finder issues 8 `has_edge` probes — every cross pair in both directions —
although the graph has one edge; a single pass over the edges (2·|E| probe
budget) can never issue 8 probes here.  The probes are cross-product pairs,
not edges. -/
theorem find_adjacent_probe_cex :
    find_adjacent_partitions gCross [({0, 1} : Finset ℕ), {2, 3}] = [] ∧
      adjacencyProbeCount gCross [({0, 1} : Finset ℕ), {2, 3}] = 8 ∧
      2 * gCross.edges.length = 2 := by decide

/-- C3 (amended): the adjacency finder returns exactly the claimed set — the
ordered pairs `i < j` of partitions connected by at least one edge in either
direction, matching the spec-modelled single-edge-pass algorithm
`edgeScanAdjacent` extensionally — but it computes that set by a
short-circuited cross-product scan over partition contents, not by an edge
pass (see `find_adjacent_probe_cex`). -/
theorem find_adjacent_partitions_correct (g : Graph)
    (parts : List (Finset ℕ)) (i j : ℕ) (hd : PDisjoint parts) :
    ((i, j) ∈ find_adjacent_partitions g parts ↔
        i < j ∧ j < parts.length ∧
          ∃ u ∈ parts.getD i ∅, ∃ v ∈ parts.getD j ∅,
            ((u, v) ∈ g.edges ∨ (v, u) ∈ g.edges)) ∧
      ((i, j) ∈ find_adjacent_partitions g parts ↔
        (i, j) ∈ edgeScanAdjacent g parts) := by
  refine ⟨mem_find_adjacent, ?_⟩
  rw [mem_find_adjacent, mem_edgeScanAdjacent hd]
  constructor
  · rintro ⟨hij, -, h⟩
    exact ⟨hij, h⟩
  · rintro ⟨hij, u, hu, v, hv, h⟩
    exact ⟨hij, getD_mem_bound hv, u, hu, v, hv, h⟩

theorem find_adjacent_partitions_correct_witness :
    PDisjoint [({0, 2} : Finset ℕ), {1, 3}] ∧
      (((0, 1) ∈ find_adjacent_partitions gCross [({0, 2} : Finset ℕ), {1, 3}] ↔
          0 < 1 ∧ 1 < ([({0, 2} : Finset ℕ), {1, 3}]).length ∧
            ∃ u ∈ ([({0, 2} : Finset ℕ), {1, 3}]).getD 0 ∅,
              ∃ v ∈ ([({0, 2} : Finset ℕ), {1, 3}]).getD 1 ∅,
                ((u, v) ∈ gCross.edges ∨ (v, u) ∈ gCross.edges)) ∧
        ((0, 1) ∈ find_adjacent_partitions gCross [({0, 2} : Finset ℕ), {1, 3}] ↔
          (0, 1) ∈ edgeScanAdjacent gCross [({0, 2} : Finset ℕ), {1, 3}])) :=
  ⟨by decide,
    find_adjacent_partitions_correct gCross [({0, 2} : Finset ℕ), {1, 3}] 0 1
      (by decide)⟩

/-- C4: with `io_balance_alpha = 0` (numerator 0, any positive denominator),
the cut size of the partition state after the I/O-balancing phase is at most
the cut size immediately after the Kernighan–Lin phase: every applied move
has positive total gain equal to its `cut_gain` and never increases the
cut. -/
theorem io_balance_cut_nonincreasing (g : Graph) (t : ℕ) (aD : ℤ)
    (labels : List ℕ) (klB : Finset ℕ → Finset ℕ → Finset ℕ × Finset ℕ)
    (pairList : List (ℕ × ℕ)) (ord : PState → List ℕ)
    (haD : 0 < aD) (hnd : g.nodes.Nodup)
    (hlen : labels.length = g.nodes.length)
    (hlab : ∀ l ∈ labels, l < kOf g.nodes.length t)
    (hkl : ∀ A B, Disjoint A B →
      (klB A B).1 ∪ (klB A B).2 = A ∪ B ∧ Disjoint (klB A B).1 (klB A B).2)
    (hpairs : ∀ p ∈ pairList, p.1 < p.2 ∧ p.2 < kOf g.nodes.length t) :
    calculate_cut_size g
        (ioOut g t 0 aD labels klB pairList ord).state.partitions ≤
      calculate_cut_size g (klParts g t labels klB pairList) := by
  obtain ⟨hd0, -⟩ :=
    assignClusters_spec g.nodes labels (kOf g.nodes.length t) hnd hlen hlab
  have hlen0 : (spectralParts g t labels).length = kOf g.nodes.length t :=
    assignClusters_length _ _ _
  have hpairs' :
      ∀ p ∈ pairList, p.1 < p.2 ∧ p.2 < (spectralParts g t labels).length := by
    rw [hlen0]
    exact hpairs
  obtain ⟨hd1, -⟩ :=
    klPhase_spec klB hkl pairList (spectralParts g t labels) hpairs' hd0
  have hA1 : Agrees (ioStart g t labels klB pairList).m
      (ioStart g t labels klB pairList).partitions := agrees_mapOf hd1
  have hAf : Agrees (ioOut g t 0 aD labels klB pairList ord).state.m
      (ioOut g t 0 aD labels klB pairList ord).state.partitions :=
    (ioLoop_preserves g 0 aD ord g.nodes.length
      (ioStart g t labels klB pairList) hA1).1
  have hmono : cutSizeM g (ioOut g t 0 aD labels klB pairList ord).state.m ≤
      cutSizeM g (ioStart g t labels klB pairList).m :=
    ioLoop_cut_mono g aD haD ord g.nodes.length
      (ioStart g t labels klB pairList) hA1
  have h1 : calculate_cut_size g
      (ioOut g t 0 aD labels klB pairList ord).state.partitions =
        cutSizeM g (ioOut g t 0 aD labels klB pairList ord).state.m :=
    calculate_cut_eq hAf
  have h2 : calculate_cut_size g (klParts g t labels klB pairList) =
      cutSizeM g (ioStart g t labels klB pairList).m := rfl
  rw [h1, h2]
  exact hmono

theorem io_balance_cut_nonincreasing_witness :
    (0 : ℤ) < 1 ∧ gBi.nodes.Nodup ∧
      calculate_cut_size gBi
          (ioOut gBi 2 0 1 [0, 1, 0, 1] klbId [(0, 1)] (ordAsc gBi)).state.partitions ≤
        calculate_cut_size gBi (klParts gBi 2 [0, 1, 0, 1] klbId [(0, 1)]) :=
  ⟨by decide, by decide,
    io_balance_cut_nonincreasing gBi 2 1 [0, 1, 0, 1] klbId [(0, 1)] (ordAsc gBi)
      (by decide) (by decide) (by decide) (by decide)
      (fun A B h => ⟨rfl, h⟩) (by decide)⟩

/-- C5: if the balancing loop ends by its stopping condition (`normal`)
rather than by exhausting the pass cap, then in the final state no boundary
node has a candidate move to any neighbor partition with
`total_gain = cut_gain + alpha * io_gain` strictly greater than zero
(`alpha = aN / aD`). -/
theorem io_balance_local_optimal (g : Graph) (aN aD : ℤ) (haD : 0 < aD)
    (ord : PState → List ℕ) (fuel : ℕ) (st : PState)
    (hord : (ord (ioLoop g aN aD ord fuel st).state).toFinset =
      boundaryFinset g (ioLoop g aN aD ord fuel st).state.m)
    (hnorm : (ioLoop g aN aD ord fuel st).normal = true) :
    ∀ n ∈ boundaryFinset g (ioLoop g aN aD ord fuel st).state.m,
      ∀ c, (ioLoop g aN aD ord fuel st).state.m n = some c →
      ∀ t ∈ neighborTargets g (ioLoop g aN aD ord fuel st).state.m n, t ≠ c →
        totalGainQ g ((aN : ℚ) / (aD : ℚ))
          (ioLoop g aN aD ord fuel st).state.partitions
          (ioLoop g aN aD ord fuel st).state.m n c t ≤ 0 := by
  intro n hn c hc t ht htc
  have hsc := ioLoop_local_opt g aN aD ord fuel st hord hnorm n hn c hc t ht htc
  rw [totalGainQ_eq_div g haD]
  apply div_nonpos_of_nonpos_of_nonneg
  · exact_mod_cast hsc
  · have : (0 : ℚ) < (aD : ℚ) := by exact_mod_cast haD
    exact le_of_lt this

theorem io_balance_local_optimal_witness :
    (0 : ℤ) < 1 ∧
      ((ordAsc gPath) (ioLoop gPath 0 1 (ordAsc gPath) 4 stPath).state).toFinset =
        boundaryFinset gPath (ioLoop gPath 0 1 (ordAsc gPath) 4 stPath).state.m ∧
      (ioLoop gPath 0 1 (ordAsc gPath) 4 stPath).normal = true ∧
      (∀ n ∈ boundaryFinset gPath
            (ioLoop gPath 0 1 (ordAsc gPath) 4 stPath).state.m,
        ∀ c, (ioLoop gPath 0 1 (ordAsc gPath) 4 stPath).state.m n = some c →
        ∀ t ∈ neighborTargets gPath
            (ioLoop gPath 0 1 (ordAsc gPath) 4 stPath).state.m n, t ≠ c →
          totalGainQ gPath ((0 : ℚ) / (1 : ℚ))
            (ioLoop gPath 0 1 (ordAsc gPath) 4 stPath).state.partitions
            (ioLoop gPath 0 1 (ordAsc gPath) 4 stPath).state.m n c t ≤ 0) :=
  ⟨by decide, by decide, by decide,
    io_balance_local_optimal gPath 0 1 (by decide) (ordAsc gPath) 4 stPath
      (by decide) (by decide)⟩

/-- C6: the balancing loop, run with its call-site pass cap
`MAX_IO_BALANCE_ITERATIONS = graph.number_of_nodes()`, executes at most
`node_count` passes and applies at most one move per pass (`moves ≤ passes`),
for every input graph, gain parameters, iteration order and start state; in
particular it always terminates (the embedding is structurally recursive on
the pass budget). -/
theorem io_balance_terminates (g : Graph) (aN aD : ℤ)
    (ord : PState → List ℕ) (st : PState) :
    (ioLoop g aN aD ord g.nodes.length st).passes ≤ g.nodes.length ∧
      (ioLoop g aN aD ord g.nodes.length st).moves ≤
        (ioLoop g aN aD ord g.nodes.length st).passes :=
  ioLoop_bounds g aN aD ord g.nodes.length st

/-- C7: degenerate inputs.  An empty graph yields an empty partition list;
a non-empty graph whose node count is at most `target_partition_size` yields
exactly one partition holding all nodes (`k < 2` short-circuit); a
single-node graph yields one partition `{v}` with I/O counts `(0, 0)`. -/
theorem hybrid_partitioner_degenerate (g : Graph) (t : ℕ) (aN aD : ℤ)
    (labels : List ℕ) (klB : Finset ℕ → Finset ℕ → Finset ℕ × Finset ℕ)
    (pairList : List (ℕ × ℕ)) (ord : PState → List ℕ)
    (ht : 0 < t) (hcl : EdgeClosed g) :
    (g.nodes = [] → hybrid_partitioner g t aN aD labels klB pairList ord = []) ∧
      (0 < g.nodes.length → g.nodes.length ≤ t →
        hybrid_partitioner g t aN aD labels klB pairList ord =
          [g.nodes.toFinset]) ∧
      (∀ v, g.nodes = [v] →
        hybrid_partitioner g t aN aD labels klB pairList ord = [{v}] ∧
          get_io_for_partition g {v} = (0, 0)) := by
  have hmain : ∀ (_ : 0 < g.nodes.length) (_ : g.nodes.length ≤ t),
      hybrid_partitioner g t aN aD labels klB pairList ord =
        [g.nodes.toFinset] := by
    intro hn0 hle
    unfold hybrid_partitioner
    rw [if_neg (Nat.pos_iff_ne_zero.mp hn0)]
    rw [if_pos ?_]
    unfold kOf
    rw [Nat.div_lt_iff_lt_mul ht]
    omega
  refine ⟨?_, hmain, ?_⟩
  · intro hnil
    unfold hybrid_partitioner
    rw [if_pos (by rw [hnil]; rfl)]
  · intro v hv
    have hn0 : 0 < g.nodes.length := by rw [hv]; exact Nat.zero_lt_one
    have hle : g.nodes.length ≤ t := by rw [hv]; exact ht
    have h1 := hmain hn0 hle
    constructor
    · rw [h1, hv]
      rfl
    · have hin :
          (g.edges.filter fun e =>
            decide (e.2 ∈ ({v} : Finset ℕ) ∧ e.1 ∉ ({v} : Finset ℕ))) = [] := by
        rw [List.filter_eq_nil_iff]
        intro e he
        simp only [decide_eq_true_eq, Finset.mem_singleton, not_and, not_not]
        intro _
        have h1e := (hcl e he).1
        rw [hv] at h1e
        simpa using h1e
      have hout :
          (g.edges.filter fun e =>
            decide (e.1 ∈ ({v} : Finset ℕ) ∧ e.2 ∉ ({v} : Finset ℕ))) = [] := by
        rw [List.filter_eq_nil_iff]
        intro e he
        simp only [decide_eq_true_eq, Finset.mem_singleton, not_and, not_not]
        intro _
        have h2e := (hcl e he).2
        rw [hv] at h2e
        simpa using h2e
      unfold get_io_for_partition
      rw [hin, hout]
      rfl

theorem hybrid_partitioner_degenerate_witness :
    0 < 3 ∧ EdgeClosed gSingle ∧
      ((gSingle.nodes = [] →
          hybrid_partitioner gSingle 3 0 1 [] klbId [] (ordAsc gSingle) = []) ∧
        (0 < gSingle.nodes.length → gSingle.nodes.length ≤ 3 →
          hybrid_partitioner gSingle 3 0 1 [] klbId [] (ordAsc gSingle) =
            [gSingle.nodes.toFinset]) ∧
        (∀ v, gSingle.nodes = [v] →
          hybrid_partitioner gSingle 3 0 1 [] klbId [] (ordAsc gSingle) =
              [{v}] ∧
            get_io_for_partition gSingle {v} = (0, 0))) :=
  ⟨by decide, by decide,
    hybrid_partitioner_degenerate gSingle 3 0 1 [] klbId [] (ordAsc gSingle)
      (by decide) (by decide)⟩

/-- C8 (counterexample): with a self-loop on a boundary node, the computed
`cut_gain` is NOT the net cut-size reduction of the move: on `gLoop`
(edges `(0,0)` and `(0,1)`, partitions `{0}`, `{1}`), node 0 is a boundary
node with candidate target partition 1, the code computes `cut_gain = -1`,
but moving node 0 to partition 1 reduces the cut by 1. -/
theorem cut_gain_selfloop_cex :
    (0 : ℕ) ∈ boundaryFinset gLoop (mapOf partsLoop) ∧
      (1 : ℕ) ∈ neighborTargets gLoop (mapOf partsLoop) 0 ∧
      mapOf partsLoop 0 = some 0 ∧
      cutGain gLoop (mapOf partsLoop) 0 0 1 ≠
        (calculate_cut_size gLoop partsLoop : ℤ) -
          calculate_cut_size gLoop
            (applyMove ⟨partsLoop, mapOf partsLoop⟩ ⟨0, 0, 1, 0⟩).partitions := by
  decide

/-- C8 (amended): for a move of a node `n` without self-loops from its
partition `c` to a partition `t`, `cut_gain` equals (#incident directed
edges into `t`) − (#incident directed edges into `c`) — each directed edge
counted once, so a neighbor adjacent in both directions counts twice — and
this equals the net reduction in total cut size from moving `n` alone from
`c` to `t`. -/
theorem cut_gain_correct (g : Graph) (parts : List (Finset ℕ))
    (m : ℕ → Option ℕ) (n c t : ℕ)
    (hA : Agrees m parts) (hm : m n = some c) (htc : t ≠ c)
    (htlen : t < parts.length) (hloop : (n, n) ∉ g.edges) :
    cutGain g m n c t = (edgesToPart g m n t : ℤ) - edgesToPart g m n c ∧
      (calculate_cut_size g parts : ℤ) -
          calculate_cut_size g (applyMove ⟨parts, m⟩ ⟨n, c, t, 0⟩).partitions =
        cutGain g m n c t := by
  constructor
  · exact cutGain_eq_counts g m n (Ne.symm htc)
  · have hA' : Agrees (applyMove ⟨parts, m⟩ ⟨n, c, t, 0⟩).m
        (applyMove ⟨parts, m⟩ ⟨n, c, t, 0⟩).partitions :=
      applyMove_agrees hA hm htlen htc
    have h1 : calculate_cut_size g parts = cutSizeM g m := calculate_cut_eq hA
    have h2 : calculate_cut_size g
        (applyMove ⟨parts, m⟩ ⟨n, c, t, 0⟩).partitions =
          cutSizeM g (updateMap m n t) := calculate_cut_eq hA'
    rw [h1, h2, cutSizeM_update g hm (Ne.symm htc), loopCount_eq_zero hloop]
    push_cast
    ring

theorem cut_gain_correct_witness :
    mapOf [({0, 1} : Finset ℕ), {2, 3}] 1 = some 0 ∧ (1 : ℕ) ≠ 0 ∧
      (1, 1) ∉ gW.edges ∧
      (cutGain gW (mapOf [({0, 1} : Finset ℕ), {2, 3}]) 1 0 1 =
          (edgesToPart gW (mapOf [({0, 1} : Finset ℕ), {2, 3}]) 1 1 : ℤ) -
            edgesToPart gW (mapOf [({0, 1} : Finset ℕ), {2, 3}]) 1 0 ∧
        (calculate_cut_size gW [({0, 1} : Finset ℕ), {2, 3}] : ℤ) -
            calculate_cut_size gW
              (applyMove ⟨[({0, 1} : Finset ℕ), {2, 3}],
                mapOf [({0, 1} : Finset ℕ), {2, 3}]⟩ ⟨1, 0, 1, 0⟩).partitions =
          cutGain gW (mapOf [({0, 1} : Finset ℕ), {2, 3}]) 1 0 1) :=
  ⟨by decide, by decide, by decide,
    cut_gain_correct gW [({0, 1} : Finset ℕ), {2, 3}]
      (mapOf [({0, 1} : Finset ℕ), {2, 3}]) 1 0 1
      (agrees_mapOf (by decide)) (by decide) (by decide) (by decide) (by decide)⟩

/-- C9: throughout the I/O-balancing phase (i.e. for every pass budget, so
for the state after every applied move) the node → partition map and the
partition list stay mutually consistent — `m x = some i` iff `x` is a member
of `partitions[i]` — and the partitions stay pairwise disjoint. -/
theorem io_balance_consistency (g : Graph) (aN aD : ℤ)
    (ord : PState → List ℕ) (fuel : ℕ) (st : PState)
    (hA : Agrees st.m st.partitions) :
    (∀ x i, (ioLoop g aN aD ord fuel st).state.m x = some i ↔
        i < (ioLoop g aN aD ord fuel st).state.partitions.length ∧
          x ∈ (ioLoop g aN aD ord fuel st).state.partitions.getD i ∅) ∧
      PDisjoint (ioLoop g aN aD ord fuel st).state.partitions := by
  have h := (ioLoop_preserves g aN aD ord fuel st hA).1
  exact ⟨fun x i => h x i, pdisjoint_of_agrees h⟩

theorem io_balance_consistency_witness :
    PDisjoint stBi.partitions ∧
      ((∀ x i, (ioLoop gBi 0 1 (ordAsc gBi) 4 stBi).state.m x = some i ↔
          i < (ioLoop gBi 0 1 (ordAsc gBi) 4 stBi).state.partitions.length ∧
            x ∈ (ioLoop gBi 0 1 (ordAsc gBi) 4 stBi).state.partitions.getD i ∅) ∧
        PDisjoint (ioLoop gBi 0 1 (ordAsc gBi) 4 stBi).state.partitions) :=
  ⟨by decide,
    io_balance_consistency gBi 0 1 (ordAsc gBi) 4 stBi (agrees_mapOf (by decide))⟩

/-- C10: for a non-empty graph the number of returned partitions is at most
`k = ceil(node_count / target_partition_size)`: the slot list is created
with `k` entries, refinement and balancing only rewrite entries, and the
final filter only removes entries. -/
theorem hybrid_partitioner_count (g : Graph) (t : ℕ) (aN aD : ℤ)
    (labels : List ℕ) (klB : Finset ℕ → Finset ℕ → Finset ℕ × Finset ℕ)
    (pairList : List (ℕ × ℕ)) (ord : PState → List ℕ)
    (hn0 : 0 < g.nodes.length) (ht : 0 < t) :
    (hybrid_partitioner g t aN aD labels klB pairList ord).length ≤
      kOf g.nodes.length t := by
  unfold hybrid_partitioner
  rw [if_neg (Nat.pos_iff_ne_zero.mp hn0)]
  by_cases hk : kOf g.nodes.length t < 2
  · rw [if_pos hk]
    show 1 ≤ kOf g.nodes.length t
    unfold kOf
    rw [Nat.one_le_div_iff ht]
    omega
  · rw [if_neg hk]
    calc ((ioOut g t aN aD labels klB pairList ord).state.partitions.filter
            fun p => decide (p ≠ ∅)).length ≤
          (ioOut g t aN aD labels klB pairList ord).state.partitions.length :=
            List.length_filter_le _ _
      _ = (ioStart g t labels klB pairList).partitions.length :=
            ioLoop_length g aN aD ord g.nodes.length _
      _ = (spectralParts g t labels).length :=
            klPhase_length klB pairList (spectralParts g t labels)
      _ = kOf g.nodes.length t := assignClusters_length _ _ _

theorem hybrid_partitioner_count_witness :
    0 < gW.nodes.length ∧ 0 < 2 ∧
      (hybrid_partitioner gW 2 1 10 [0, 0, 1, 1] klbId [(0, 1)]
          (ordAsc gW)).length ≤ kOf gW.nodes.length 2 :=
  ⟨by decide, by decide,
    hybrid_partitioner_count gW 2 1 10 [0, 0, 1, 1] klbId [(0, 1)] (ordAsc gW)
      (by decide) (by decide)⟩

end TwoFold
